import Mathlib

/-!
Verification of the local workflow runner (`tools/workflow_runner.py`).

The development shallowly embeds the engine's pure core: the templating
expression evaluator (`_evaluate_expression`, `_parse_literal`,
`_get_nested_value`, `_substitute_string`), the output-assembly logic of
`run_shell_command` and `_action_job_runner` (with the filesystem abstracted
as a map from file names to contents), the dependency scheduler
(`get_job_order`, Kahn's algorithm), and the orchestration loop of `run`
(with subprocess execution abstracted as oracles giving each step's result).

Python data is modelled as follows: `str` is `String`, dicts are
insertion-ordered association lists with Python assignment semantics
(`dictUpdate`), Python `set` objects are deduplicated lists (only
membership, emptiness and removal are used by the source), and the dynamic
values flowing through the evaluator are the inductive type `Value`.
-/

namespace WFR

/-! ## Python string primitives (modelled on `List Char`) -/

/-- The whitespace characters stripped by Python `str.strip()` (ASCII range,
which is all the source ever feeds it). -/
def pySpace (c : Char) : Bool :=
  c = ' ' || c = '\t' || c = '\n' || c = '\r' || c = '\x0b' || c = '\x0c'

/-- Python `str.strip()` on a character list. -/
def stripL (l : List Char) : List Char :=
  ((l.dropWhile pySpace).reverse.dropWhile pySpace).reverse

/-- Python `str.strip()`. -/
def pyStrip (s : String) : String := ⟨stripL s.toList⟩

/-- Split a character list at the first occurrence of `sep`:
`some (before, after)` when `sep` occurs, `none` otherwise. -/
def splitFirstL (sep : List Char) : List Char → Option (List Char × List Char)
  | [] => none
  | c :: rest =>
    if sep.isPrefixOf (c :: rest) then some ([], (c :: rest).drop sep.length)
    else match splitFirstL sep rest with
         | some (a, b) => some (c :: a, b)
         | none => none

/-- Characterization of `splitFirstL`: a successful split decomposes the
input around the separator. -/
theorem splitFirstL_eq_append (sep : List Char) :
    ∀ l a b, splitFirstL sep l = some (a, b) → l = a ++ sep ++ b := by
  intro l
  induction l with
  | nil => intro a b h; simp [splitFirstL] at h
  | cons c rest ih =>
    intro a b h
    rw [splitFirstL] at h
    split at h
    · rename_i hpre
      obtain ⟨t, ht⟩ := List.isPrefixOf_iff_prefix.mp hpre
      cases h
      rw [List.nil_append]
      conv_lhs => rw [← ht]
      rw [← ht, List.drop_left]
    · revert h
      split
      · rename_i a' b' hrec
        intro h
        cases h
        have := ih _ _ hrec
        rw [this]; simp
      · intro h; cases h

/-- Python `s.split(sep, 1)` when `sep` occurs in `s` (the two pieces);
`none` models the no-occurrence case. -/
def splitFirst? (sep s : String) : Option (String × String) :=
  match splitFirstL sep.toList s.toList with
  | some (a, b) => some (⟨a⟩, ⟨b⟩)
  | none => none

/-- Python `sep in s` (substring containment). -/
def strContains (sep s : String) : Bool := (splitFirst? sep s).isSome

/-- Python `s.split(sep)` (split at every occurrence of the separator;
`c :: cs` is the separator, forced non-empty as in Python). Fuel makes the
recursion structural; every recursive call is on a strictly shorter list,
so `length + 1` fuel never runs out (`splitAllFuel_congr`). -/
def splitAllFuel (c : Char) (cs : List Char) : Nat → List Char → List (List Char)
  | 0, l => [l]
  | fuel + 1, l =>
    match splitFirstL (c :: cs) l with
    | none => [l]
    | some (a, b) => a :: splitAllFuel c cs fuel b

/-- Python `s.split(sep)` on character lists. -/
def splitAllL (c : Char) (cs : List Char) (l : List Char) : List (List Char) :=
  splitAllFuel c cs (l.length + 1) l

/-- Python `s.split(sep)` for a non-empty separator string. -/
def splitAllStr (sep s : String) : List String :=
  match sep.toList with
  | [] => [s]
  | c :: cs => (splitAllL c cs s.toList).map (⟨·⟩)

/-- Python `sep.join(parts)` on character lists. -/
def joinL (sep : List Char) : List (List Char) → List Char
  | [] => []
  | [x] => x
  | x :: y :: rest => x ++ sep ++ joinL sep (y :: rest)

/-- Python `sep.join(parts)`. -/
def pyJoin (sep : String) (parts : List String) : String :=
  ⟨joinL sep.toList (parts.map String.toList)⟩

/-- Python `s.startswith(pre)`. -/
def startsWithStr (pre s : String) : Bool := pre.toList.isPrefixOf s.toList

/-- Python `s[n:]` (drop the first `n` characters). -/
def strDrop (s : String) (n : Nat) : String := ⟨s.toList.drop n⟩

/-- Python `s[1:-1]` (drop the first and the last character). -/
def strDropEnds (s : String) : String := ⟨(s.toList.drop 1).dropLast⟩

/-- Python `str.splitlines()` restricted to `\n` terminators (the only ones
the source's coordination and outputs files contain): split on every
newline, with no entry for a trailing terminator and `[]` for `""`. -/
def pySplitlines (s : String) : List String :=
  if s = "" then []
  else
    let parts := splitAllStr "\n" s
    if s.toList.getLast? = some '\n' then parts.dropLast else parts

/-- Python `s.endswith(suf)`. -/
def endsWithStr (suf s : String) : Bool := suf.toList.isSuffixOf s.toList

/-- The single-quote character (written via its code point so the source
text stays quote-free). -/
def sqS : String := (Char.ofNat 39).toString

/-- The double-quote character. -/
def dqS : String := (Char.ofNat 34).toString

/-! ## Python dictionaries (insertion-ordered association lists) -/

/-- Python `d.get(k)`: first (only, since dict keys are unique) binding. -/
def dictGet (d : List (String × α)) (k : String) : Option α :=
  match d with
  | [] => none
  | (k0, v0) :: rest => if k0 = k then some v0 else dictGet rest k

/-- Python `d[k] = v`: replace in place if the key exists (keeping its
insertion position), else append at the end. -/
def dictUpdate (d : List (String × α)) (k : String) (v : α) : List (String × α) :=
  match d with
  | [] => [(k, v)]
  | (k0, v0) :: rest =>
    if k0 = k then (k0, v) :: rest else (k0, v0) :: dictUpdate rest k v

/-- Python `d.update(other)`: assign every binding of `other` in order. -/
def dictUpdates (d other : List (String × α)) : List (String × α) :=
  other.foldl (fun acc p => dictUpdate acc p.1 p.2) d

/-! ## Dynamic values -/

/-- The dynamically typed Python values that flow through the evaluator:
strings, booleans, integers and (nested) dicts, as found in
`ExecutionContext.inputs` and in evaluation results. -/
inductive Value where
  | str (s : String)
  | bool (b : Bool)
  | int (n : Int)
  | dict (entries : List (String × Value))

/-- A size measure on values (used as rendering fuel for nested dicts). -/
def valueSize : Value → Nat
  | .dict l => 1 + ((l.attach.map fun p => valueSize p.1.2).sum)
  | _ => 1
decreasing_by
  have hm := List.sizeOf_lt_of_mem p.2
  obtain ⟨⟨k, v⟩, hp⟩ := p
  simp only [Prod.mk.sizeOf_spec] at hm ⊢
  simp only [Value.dict.sizeOf_spec]
  omega

/-- The result of `_parse_literal`: a string, boolean or integer (the
function never produces anything else). -/
inductive Lit where
  | str (s : String)
  | bool (b : Bool)
  | int (n : Int)
deriving DecidableEq

/-- Python `==` between an evaluated left-hand value and a parsed
right-hand literal. Numeric cross-comparison between `bool` and `int`
follows Python (`True == 1`); every other cross-type comparison is `False`,
including anything compared against a dict. -/
def pyEqLit : Value → Lit → Bool
  | .str a, .str b => a = b
  | .bool a, .bool b => a = b
  | .int a, .int b => a = b
  | .bool a, .int b => (if a then (1 : Int) else 0) = b
  | .int a, .bool b => a = (if b then (1 : Int) else 0)
  | _, _ => false

/-- Python truthiness of an evaluator value (`bool(v)`), as used by the
`any`/`all` in the `||` and `&&` branches. -/
def pyTruthy : Value → Bool
  | .str s => s ≠ ""
  | .bool b => b
  | .int n => n ≠ 0
  | .dict d => !d.isEmpty

/-- All-digit check for `pyInt?`. -/
def digitsToNat? (l : List Char) : Option Nat :=
  if l ≠ [] ∧ l.all (·.isDigit) then
    some (l.foldl (fun a c => a * 10 + (c.toNat - 48)) 0)
  else none

/-- Python `int(s)` on the already-stripped strings `_parse_literal` feeds
it: optional sign followed by decimal digits (CPython's underscore
grouping and non-ASCII digits are not modelled; the engine never produces
them). -/
def pyInt? (s : String) : Option Int :=
  match s.toList with
  | [] => none
  | c :: rest =>
    if c = '-' then (digitsToNat? rest).map (fun n => -(n : Int))
    else if c = '+' then (digitsToNat? rest).map (fun n => (n : Int))
    else (digitsToNat? (c :: rest)).map (fun n => (n : Int))

/-- Model of `WorkflowRunner._parse_literal`: strip matching single or double
quotes to a string; `true`/`false` to booleans; the empty string to itself;
otherwise attempt an integer parse; otherwise the raw text. -/
def parse_literal (value : String) : Lit :=
  if (startsWithStr sqS value && endsWithStr sqS value)
      || (startsWithStr dqS value && endsWithStr dqS value) then
    .str (strDropEnds value)
  else if value = "true" then .bool true
  else if value = "false" then .bool false
  else if value = "" then .str ""
  else
    match pyInt? value with
    | some n => .int n
    | none => .str value

/-! ## Execution context and expression evaluation -/

/-- Model of `JobOutput`: outputs of a completed job (insertion-ordered dict),
a success flag and an optional error text. Field defaults mirror the
dataclass defaults. -/
structure JobOutput where
  outputs : List (String × String) := []
  success : Bool := true
  error : Option String := none
deriving DecidableEq

/-- The slice of `ExecutionContext` the evaluator reads: inputs, session
bindings, recorded job outputs and environment variables. `osEnviron`
models the ambient `os.environ` fallback of `env.` lookups as an explicit
snapshot. -/
structure Ctx where
  inputs : List (String × Value) := []
  sessions : List (String × String) := []
  job_outputs : List (String × JobOutput) := []
  env_vars : List (String × String) := []
  osEnviron : List (String × String) := []

/-- The descent loop of `WorkflowRunner._get_nested_value`: walk the parts,
stepping through dicts with `''` as the default for a missing key, and
answer `''` as soon as a non-dict is reached with parts still left. -/
def getNestedGo : Value → List String → Value
  | cur, [] => cur
  | .dict d, p :: rest => getNestedGo ((dictGet d p).getD (.str "")) rest
  | _, _ :: _ => .str ""

/-- Model of `WorkflowRunner._get_nested_value`. -/
def get_nested_value (obj : Value) (path : String) : Value :=
  getNestedGo obj (splitAllStr "." path)

/-- Model of `WorkflowRunner._evaluate_expression`, with fuel making the recursion
structural (every recursive call is on a strictly shorter string, so
`length + 1` fuel never runs out; `evalFuel_congr` below proves fuel
irrelevance). The branches appear in the source's order: ` != `, ` == `,
` || `, ` && `, then the `inputs.`/`sessions.`/`needs.`/`env.` prefixes,
then the extra scope, then the raw text fallback. -/
def evalFuel (ctx : Ctx) (extra : List (String × Value)) : Nat → String → Value
  | 0, _ => .str ""
  | fuel + 1, expr =>
    match splitFirst? " != " expr with
    | some (l, r) =>
      .bool (!pyEqLit (evalFuel ctx extra fuel (pyStrip l)) (parse_literal (pyStrip r)))
    | none =>
      match splitFirst? " == " expr with
      | some (l, r) =>
        .bool (pyEqLit (evalFuel ctx extra fuel (pyStrip l)) (parse_literal (pyStrip r)))
      | none =>
        if strContains " || " expr then
          .bool ((splitAllStr " || " expr).any fun p =>
            pyTruthy (evalFuel ctx extra fuel (pyStrip p)))
        else if strContains " && " expr then
          .bool ((splitAllStr " && " expr).all fun p =>
            pyTruthy (evalFuel ctx extra fuel (pyStrip p)))
        else if startsWithStr "inputs." expr then
          get_nested_value (.dict ctx.inputs) (strDrop expr 7)
        else if startsWithStr "sessions." expr then
          .str ((dictGet ctx.sessions (strDrop expr 9)).getD
            ("session-" ++ strDrop expr 9))
        else if startsWithStr "needs." expr then
          let parts := splitAllStr "." (strDrop expr 6)
          if 3 ≤ parts.length && parts.getD 1 "" == "outputs" then
            let job_name := parts.getD 0 ""
            let output_name := pyJoin "." (parts.drop 2)
            match dictGet ctx.job_outputs job_name with
            | some jo => .str ((dictGet jo.outputs output_name).getD "")
            | none => .str ""
          else .str ""
        else if startsWithStr "env." expr then
          .str ((dictGet ctx.env_vars (strDrop expr 4)).getD
            ((dictGet ctx.osEnviron (strDrop expr 4)).getD ""))
        else
          match dictGet extra expr with
          | some v => v
          | none => .str expr

/-- Model of `WorkflowRunner._evaluate_expression`. -/
def evaluate_expression (ctx : Ctx) (extra : List (String × Value)) (expr : String) : Value :=
  evalFuel ctx extra (expr.length + 1) expr

/-- Python `repr`, used by `str` on dict values: quoting and brace syntax
modelled for the plain strings the engine stores (string escape sequences
are not reproduced). Fuel is `sizeOf`, which the nested recursion always
respects. -/
def pyReprFuel : Nat → Value → String
  | 0, _ => ""
  | _ + 1, .str s => sqS ++ s ++ sqS
  | _ + 1, .bool b => if b then "True" else "False"
  | _ + 1, .int n => toString n
  | f + 1, .dict l =>
    "\x7b" ++ pyJoin ", " (l.map fun p => sqS ++ p.1 ++ sqS ++ ": " ++ pyReprFuel f p.2)
      ++ "\x7d"

/-- Python `str(v)` as applied by `_substitute_string` to an evaluation
result: identity on strings, `True`/`False` on booleans, decimal on
integers, `repr`-style rendering on dicts. -/
def pyStr (v : Value) : String :=
  match v with
  | .str s => s
  | .bool b => if b then "True" else "False"
  | .int n => toString n
  | .dict _ => pyReprFuel (valueSize v) v

/-- The scanning core of `WorkflowRunner._substitute_string`: replace each
placeholder opened by the earliest remaining occurrence of the three
characters dollar-brace-brace and closed by the first following
brace-brace pair (which is where the lazy regex group ends), the body
whitespace-stripped, and continue after the closing braces. Placeholder
bodies spanning a newline (which the lazy dot of the source regex would
reject) do not occur in workflow documents and are not modelled. -/
def substFuel (ctx : Ctx) (extra : List (String × Value)) : Nat → List Char → List Char
  | 0, l => l
  | fuel + 1, l =>
    match splitFirstL ("$" ++ "\x7b\x7b").toList l with
    | none => l
    | some (before, rest) =>
      match splitFirstL "\x7d\x7d".toList rest with
      | none => l
      | some (inner, tail) =>
        before ++ (pyStr (evaluate_expression ctx extra (pyStrip ⟨inner⟩))).toList
          ++ substFuel ctx extra fuel tail

/-- Model of `WorkflowRunner._substitute_string`. -/
def substitute_string (ctx : Ctx) (extra : List (String × Value)) (text : String) : String :=
  ⟨substFuel ctx extra (text.toList.length + 1) text.toList⟩

/-! ## Output assembly (`run_shell_command`, `_action_job_runner`)

The filesystem state of the working directory is abstracted as a map
`fs : String → Option String` from file name to content (`none` when the
file does not exist). -/

/-- One iteration of the outputs-sink parsing loop of `run_shell_command`
(lines 406-409): a line containing a `=` is split at the first `=` and the
stripped key/value pair recorded; other lines contribute nothing. -/
def outputsLineStep (outs : List (String × String)) (line : String) :
    List (String × String) :=
  match splitFirst? "=" line with
  | some (k, v) => dictUpdate outs (pyStrip k) (pyStrip v)
  | none => outs

/-- The outputs-sink parsing loop of `run_shell_command` (lines 404-409)
over the lines `splitlines` yields. -/
def parseOutputsFile (lines : List String) : List (String × String) :=
  lines.foldl outputsLineStep []

/-- One iteration of the coordination-file read-back loop shared by
`run_shell_command` and `_action_job_runner`: when the file exists in the
working directory, record its stripped content under the file name. -/
def coordStep (fs : String → Option String) (o : List (String × String))
    (name : String) : List (String × String) :=
  match fs name with
  | some content => dictUpdate o name (pyStrip content)
  | none => o

/-- The coordination-file read-back loop. -/
def readCoordFiles (files : List String) (fs : String → Option String)
    (outs : List (String × String)) : List (String × String) :=
  files.foldl (coordStep fs) outs

/-- The outputs-sink contribution of `run_shell_command`: parse
`step_outputs.txt` in the working directory when it exists. -/
def sinkOutputs (fs : String → Option String) : List (String × String) :=
  match fs "step_outputs.txt" with
  | some content => parseOutputsFile (pySplitlines content)
  | none => []

/-- The output map a successful (zero-exit, non-dry-run) `run_shell_command`
returns: the parsed outputs-sink file, then the coordination files
`HOSTNAME`, `SESSION_PORT` and `slug` read back over it. -/
def run_shell_command_outputs (fs : String → Option String) : List (String × String) :=
  readCoordFiles ["HOSTNAME", "SESSION_PORT", "slug"] fs (sinkOutputs fs)

/-- The output map a successful `_action_job_runner` invocation returns:
the coordination files `HOSTNAME` and `SESSION_PORT` read back into an
empty map. -/
def job_runner_outputs (fs : String → Option String) : List (String × String) :=
  readCoordFiles ["HOSTNAME", "SESSION_PORT"] fs []

/-! ## Dependency scheduler (`get_job_order`)

A workflow's job mapping is modelled as `List (String × List String)`:
job name paired with its (already list-normalised) `needs`, in document
insertion order. -/

/-- Total number of pending dependency entries (the termination measure of
the Kahn loop). -/
def depsSize (deps : List (String × List String)) : Nat :=
  (deps.map (fun p => p.2.length)).sum

/-- The inner `for other_job, deps in dependencies.items()` loop of
`get_job_order` after `job` has been appended to `result` (`res` is that
extended result): erase `job` from every dependency set containing it and
collect, in iteration order, the jobs whose set just became empty and that
are not already in `res` (the ready list appended to the queue). -/
def processRemoval (res : List String) (job : String) :
    List (String × List String) → List (String × List String) × List String
  | [] => ([], [])
  | (other, ds) :: rest =>
    let tail := processRemoval res job rest
    if job ∈ ds then
      let ds2 := ds.erase job
      if ds2 = [] ∧ other ∉ res then ((other, ds2) :: tail.1, other :: tail.2)
      else ((other, ds2) :: tail.1, tail.2)
    else ((other, ds) :: tail.1, tail.2)

/-- The `while no_deps:` loop of `get_job_order`: pop the queue head,
append it to the result, erase it from all dependency sets and enqueue the
newly ready jobs. Fuel makes the recursion structural; each iteration
strictly decreases `queue.length + depsSize deps`, so the fuel
`get_job_order` supplies never runs out. -/
def kahnFuel : Nat → List String → List String → List (String × List String) → List String
  | 0, _, result, _ => result
  | _ + 1, [], result, _ => result
  | fuel + 1, job :: queue, result, deps =>
    let result2 := result ++ [job]
    let pr := processRemoval result2 job deps
    kahnFuel fuel (queue ++ pr.2) result2 pr.1

/-- Model of `WorkflowRunner.get_job_order`. A `set(needs)` is modelled as the
deduplicated needs list (the loop only tests membership and emptiness and
removes elements, so order within the set is irrelevant). On success, the
topologically sorted job names; on failure the `remaining` set of the
raised `Circular dependency detected in jobs: {remaining}` message,
modelled as a list in document order (the Python value is an unordered
set, so only membership in it is meaningful). -/
def get_job_order (jobs : List (String × List String)) :
    Except (List String) (List String) :=
  let dependencies := jobs.map (fun p => (p.1, p.2.dedup))
  let noDeps := (dependencies.filter (fun p => p.2.isEmpty)).map (fun p => p.1)
  let result := kahnFuel (noDeps.length + depsSize dependencies + 1) noDeps [] dependencies
  if result.length = jobs.length then .ok result
  else .error ((jobs.map (fun p => p.1)).filter (fun j => j ∉ result))

/-- The dependency relation restricted to job names that exist in the
workflow: `edge jobs j d` holds when job `j` declares `d` in its `needs`
and `d` is itself a job of the workflow. -/
def edge (jobs : List (String × List String)) (j d : String) : Prop :=
  ∃ ns, (j, ns) ∈ jobs ∧ d ∈ ns ∧ d ∈ jobs.map (fun p => p.1)

/-- The dependency relation restricted to existing job names contains a
cycle. -/
def HasCycle (jobs : List (String × List String)) : Prop :=
  ∃ x, Relation.TransGen (edge jobs) x x

/-- A job all of whose transitive dependencies exist in the workflow and
bottom out (no cycle through it, no dependency on a nonexistent name):
exactly the jobs Kahn's algorithm can schedule. -/
inductive Completable (jobs : List (String × List String)) : String → Prop
  | intro (j : String) (ns : List String) (hj : (j, ns) ∈ jobs)
      (hdeps : ∀ d ∈ ns, Completable jobs d) : Completable jobs j

/-! ## Orchestrator (`run_step`, `run_job`, the `run` job loop)

Subprocess execution is abstracted: oracles give, per job name and step
index, the result an action (`run_action`) or a shell command
(`run_shell_command`) would produce — either an output map or the message
of the exception it raises. The trace of parts actually executed is
returned alongside, so "this step never ran" is a statement about the
model, not about absence of evidence. -/

/-- A step record: optional `uses` action identifier and optional `run`
command (each may be absent; both may be present). -/
structure Step where
  uses : Option String := none
  run : Option String := none
deriving DecidableEq

/-- Which half of a step executed. -/
inductive Part where
  | action
  | shell
deriving DecidableEq

/-- Model of `WorkflowRunner.run_step`, given the oracle results `aRes` for the
`uses` half and `sRes` for the `run` half: the action runs first (when
present), then the command (when present), whose outputs replace — not
merge with — the action's; an exception from the action half propagates
before the command half runs. Returns the step's result together with the
parts that actually executed. -/
def runStepM (step : Step) (aRes sRes : Except String (List (String × String))) :
    Except String (List (String × String)) × List Part :=
  match step.uses, step.run with
  | none, none => (.ok [], [])
  | some _, none => (aRes, [.action])
  | none, some _ => (sRes, [.shell])
  | some _, some _ =>
    match aRes with
    | .error e => (.error e, [.action])
    | .ok _ => (sRes, [.action, .shell])

/-- The step loop of `WorkflowRunner.run_job`, from step index `i`:
accumulate step outputs into the job's output map (later keys overwrite),
and on a step exception record failure and stop — except in dry-run mode,
which continues past the failure. The trace tags every executed part with
the job name and step index. -/
def runJobGo (aRes sRes : String → Nat → Except String (List (String × String)))
    (dryRun : Bool) (jobName : String) :
    Nat → List Step → JobOutput → JobOutput × List (String × Nat × Part)
  | _, [], acc => (acc, [])
  | i, st :: rest, acc =>
    let r := runStepM st (aRes jobName i) (sRes jobName i)
    let tr := r.2.map (fun part => (jobName, i, part))
    match r.1 with
    | .ok outs =>
      let next := runJobGo aRes sRes dryRun jobName (i + 1) rest
        { acc with outputs := dictUpdates acc.outputs outs }
      (next.1, tr ++ next.2)
    | .error e =>
      let acc2 := { acc with success := false, error := some e }
      if dryRun then
        let next := runJobGo aRes sRes dryRun jobName (i + 1) rest acc2
        (next.1, tr ++ next.2)
      else (acc2, tr)

/-- Model of `WorkflowRunner.run_job`. -/
def run_job (aRes sRes : String → Nat → Except String (List (String × String)))
    (dryRun : Bool) (jobName : String) (steps : List Step) :
    JobOutput × List (String × Nat × Part) :=
  runJobGo aRes sRes dryRun jobName 0 steps {}

/-- The dependency check of `WorkflowRunner.run` (lines 478-481): every
dependency's recorded output — defaulting to a fresh successful
`JobOutput()` when none is recorded — has its success flag set. -/
def depsOk (outs : List (String × JobOutput)) (needs : List String) : Bool :=
  needs.all (fun d => ((dictGet outs d).getD {}).success)

/-- The job loop of `WorkflowRunner.run` (lines 470-496): walk the
scheduled order; a job whose dependency check fails is recorded as
`JobOutput(success=False, error="Dependency failed")` without running,
otherwise `run_job` runs and its output is recorded. Returns the final
job-outputs map and the trace of executed step parts. -/
def runJobsLoop (runJobF : String → JobOutput × List (String × Nat × Part))
    (needsOf : String → List String) :
    List String → List (String × JobOutput) →
    List (String × JobOutput) × List (String × Nat × Part)
  | [], outs => (outs, [])
  | j :: rest, outs =>
    if depsOk outs (needsOf j) then
      let r := runJobF j
      let next := runJobsLoop runJobF needsOf rest (dictUpdate outs j r.1)
      (next.1, r.2 ++ next.2)
    else
      runJobsLoop runJobF needsOf rest
        (dictUpdate outs j { success := false, error := some "Dependency failed" })

/-- The job loop of `WorkflowRunner.run` with `run_job` plugged in:
`needsOf` and `stepsOf` give each job's configuration, `order` is the
scheduled order, and execution starts from the empty job-outputs map of a
fresh run. -/
def runJobs (aRes sRes : String → Nat → Except String (List (String × String)))
    (dryRun : Bool) (needsOf : String → List String) (stepsOf : String → List Step)
    (order : List String) :
    List (String × JobOutput) × List (String × Nat × Part) :=
  runJobsLoop (fun j => run_job aRes sRes dryRun j (stepsOf j)) needsOf order []

/-! ## Toolkit: string and dictionary lemmas -/

theorem strMk_toList (s : String) : (⟨s.toList⟩ : String) = s := by
  cases s; rfl

theorem toList_strMk (l : List Char) : (⟨l⟩ : String).toList = l := rfl

theorem strLength_eq (s : String) : s.length = s.toList.length := rfl

theorem toList_append (a b : String) : (a ++ b).toList = a.toList ++ b.toList :=
  String.data_append a b

theorem stripL_sublist (l : List Char) : (stripL l).Sublist l := by
  unfold stripL
  have h1 : ((l.dropWhile pySpace).reverse.dropWhile pySpace).Sublist
      (l.dropWhile pySpace).reverse := List.dropWhile_sublist _
  have h2 : ((l.dropWhile pySpace).reverse.dropWhile pySpace).reverse.Sublist
      ((l.dropWhile pySpace).reverse.reverse) := List.Sublist.reverse h1
  rw [List.reverse_reverse] at h2
  exact h2.trans (List.dropWhile_sublist _)

theorem stripL_length_le (l : List Char) : (stripL l).length ≤ l.length :=
  (stripL_sublist l).length_le

theorem pyStrip_length_le (s : String) : (pyStrip s).length ≤ s.length :=
  stripL_length_le s.toList

theorem splitFirst?_eq_append {sep s l r : String}
    (h : splitFirst? sep s = some (l, r)) :
    s.toList = l.toList ++ sep.toList ++ r.toList := by
  unfold splitFirst? at h
  revert h
  split
  · rename_i a b heq
    intro h
    cases h
    exact splitFirstL_eq_append _ _ _ _ heq
  · intro h; cases h

theorem splitFirst?_left_lt {sep s l r : String} (hsep : sep ≠ "")
    (h : splitFirst? sep s = some (l, r)) : l.length < s.length := by
  have := splitFirst?_eq_append h
  have hlen : s.toList.length = l.toList.length + sep.toList.length + r.toList.length := by
    rw [this]; simp; omega
  have hsep' : sep.toList.length ≠ 0 := by
    intro h0
    exact hsep (by cases sep with | mk d => cases d <;> simp_all)
  simp only [strLength_eq]
  omega

theorem splitFirst?_right_lt {sep s l r : String} (hsep : sep ≠ "")
    (h : splitFirst? sep s = some (l, r)) : r.length < s.length := by
  have := splitFirst?_eq_append h
  have hlen : s.toList.length = l.toList.length + sep.toList.length + r.toList.length := by
    rw [this]; simp; omega
  have hsep' : sep.toList.length ≠ 0 := by
    intro h0
    exact hsep (by cases sep with | mk d => cases d <;> simp_all)
  simp only [strLength_eq]
  omega

theorem splitFirstL_none_of_not_mem {sep : List Char} {c : Char}
    (hc : c ∈ sep) : ∀ {l : List Char}, c ∉ l → splitFirstL sep l = none := by
  intro l
  induction l with
  | nil => intro _; rfl
  | cons x xs ih =>
    intro hnl
    rw [splitFirstL]
    split
    · rename_i hpre
      exact absurd ((List.isPrefixOf_iff_prefix.mp hpre).subset hc) hnl
    · rw [ih (fun hmem => hnl (List.mem_cons_of_mem x hmem))]

theorem splitFirst?_none_of_not_mem {sep s : String} {c : Char}
    (hc : c ∈ sep.toList) (hs : c ∉ s.toList) : splitFirst? sep s = none := by
  unfold splitFirst?
  rw [splitFirstL_none_of_not_mem hc hs]

theorem dictGet_update_self {α : Type} (d : List (String × α)) (k : String) (v : α) :
    dictGet (dictUpdate d k v) k = some v := by
  induction d with
  | nil => simp [dictUpdate, dictGet]
  | cons p rest ih =>
    obtain ⟨k0, v0⟩ := p
    by_cases h : k0 = k
    · simp [dictUpdate, dictGet, h]
    · simp [dictUpdate, dictGet, h, ih]

theorem dictGet_update_ne {α : Type} (d : List (String × α)) (k k' : String) (v : α)
    (h : k ≠ k') : dictGet (dictUpdate d k v) k' = dictGet d k' := by
  induction d with
  | nil => simp [dictUpdate, dictGet, h]
  | cons p rest ih =>
    obtain ⟨k0, v0⟩ := p
    by_cases h0 : k0 = k
    · subst h0
      simp [dictUpdate, dictGet, h]
    · simp [dictUpdate, dictGet, h0, ih]

/-! ## Claim C8: missing `inputs.` paths resolve to the empty string -/

/-- The path cannot be fully resolved against the value: some key along it
is absent at some depth, or the descent reaches a non-mapping value before
the path is exhausted. -/
inductive PathMissing : Value → List String → Prop
  | missingKey (d : List (String × Value)) (p : String) (rest : List String)
      (h : dictGet d p = none) : PathMissing (.dict d) (p :: rest)
  | deeper (d : List (String × Value)) (p : String) (rest : List String) (v : Value)
      (h : dictGet d p = some v) (hr : PathMissing v rest) :
      PathMissing (.dict d) (p :: rest)
  | notDict (cur : Value) (p : String) (rest : List String)
      (h : ∀ l, cur ≠ .dict l) : PathMissing cur (p :: rest)

theorem getNestedGo_str_empty (rest : List String) :
    getNestedGo (.str "") rest = .str "" := by
  cases rest <;> rfl

theorem getNestedGo_of_pathMissing {obj : Value} {parts : List String}
    (h : PathMissing obj parts) : getNestedGo obj parts = .str "" := by
  induction h with
  | missingKey d p rest h =>
    rw [getNestedGo, h]
    exact getNestedGo_str_empty rest
  | deeper d p rest v h hr ih =>
    rw [getNestedGo, h]
    exact ih
  | notDict cur p rest h =>
    cases cur with
    | dict l => exact absurd rfl (h l)
    | str s => rfl
    | bool b => rfl
    | int n => rfl

/-- C8: for every dotted path and every nested inputs mapping, when any key
along the path is absent at any depth, or the descent hits a non-mapping
value before the path is exhausted, `_get_nested_value` yields the empty
string rather than raising. -/
theorem get_nested_value_missing_eq_empty (obj : Value) (path : String)
    (h : PathMissing obj (splitAllStr "." path)) :
    get_nested_value obj path = .str "" :=
  getNestedGo_of_pathMissing h

/-- Witness for C8 at the nested mapping `{a: {b: "x"}}` and the paths
`a.c` (key missing at depth 2), `z` (key missing at depth 1) and `a.b.c`
(descent hits the non-mapping `"x"` with `c` still unconsumed). -/
theorem get_nested_value_missing_eq_empty_witness :
    get_nested_value (.dict [("a", .dict [("b", .str "x")])]) "a.c" = .str ""
    ∧ get_nested_value (.dict [("a", .dict [("b", .str "x")])]) "z" = .str ""
    ∧ get_nested_value (.dict [("a", .dict [("b", .str "x")])]) "a.b.c" = .str "" := by
  refine ⟨?_, ?_, ?_⟩
  · exact get_nested_value_missing_eq_empty _ _
      (PathMissing.deeper _ "a" ["c"] _ rfl (PathMissing.missingKey _ "c" [] rfl))
  · exact get_nested_value_missing_eq_empty _ _ (PathMissing.missingKey _ "z" [] rfl)
  · exact get_nested_value_missing_eq_empty _ _
      (PathMissing.deeper _ "a" ["b", "c"] _ rfl
        (PathMissing.deeper _ "b" ["c"] _ rfl
          (PathMissing.notDict (.str "x") "c" [] (by intro l h; cases h))))

/-! ## Claim C10: a step with both `uses` and `run` -/

/-- C10: for a step record carrying both a `uses` key and a `run` key,
`run_step` executes the action first and then the shell command (the trace
is `[action, shell]`), and returns only the shell command's output map:
whatever outputs `oa` the action produced are discarded, not merged. -/
theorem run_step_uses_and_run (step : Step) (a r : String) (oa oc : List (String × String))
    (hu : step.uses = some a) (hr : step.run = some r) :
    runStepM step (.ok oa) (.ok oc) = (.ok oc, [.action, .shell]) := by
  obtain ⟨u, rn⟩ := step
  cases hu; cases hr
  rfl

/-- Witness for C10: a concrete step with both halves, where the action
produced the binding `k := a-value` and the command the binding
`k := c-value`; the step's result keeps only the command's. -/
theorem run_step_uses_and_run_witness :
    runStepM { uses := some "marketplace/job_runner", run := some "echo hi" }
      (.ok [("k", "a-value")]) (.ok [("k", "c-value")])
      = (.ok [("k", "c-value")], [.action, .shell]) :=
  run_step_uses_and_run _ "marketplace/job_runner" "echo hi" _ _ rfl rfl

/-! ## Claim C5: outputs-sink parsing (key and value are stripped) -/

theorem parseOutputs_fold_no_contrib (lines : List String)
    (outs : List (String × String)) (key : String)
    (h : ∀ line ∈ lines, ∀ k v, splitFirst? "=" line = some (k, v) → pyStrip k ≠ key) :
    dictGet (lines.foldl outputsLineStep outs) key = dictGet outs key := by
  induction lines generalizing outs with
  | nil => rfl
  | cons line rest ih =>
    rw [List.foldl_cons]
    rw [ih _ (fun l hl => h l (List.mem_cons_of_mem line hl))]
    unfold outputsLineStep
    split
    · rename_i k v hsplit
      exact dictGet_update_ne _ _ _ _ (h line (List.mem_cons_self line rest) k v hsplit)
    · rfl

theorem parseOutputs_fold_isSome (lines : List String)
    (outs : List (String × String)) (key : String) :
    (dictGet (lines.foldl outputsLineStep outs) key).isSome = true ↔
      ((dictGet outs key).isSome = true
        ∨ ∃ line ∈ lines, ∃ k v, splitFirst? "=" line = some (k, v) ∧ pyStrip k = key) := by
  induction lines generalizing outs with
  | nil => simp
  | cons line rest ih =>
    rw [List.foldl_cons, ih]
    have hstep : (dictGet (outputsLineStep outs line) key).isSome = true ↔
        ((dictGet outs key).isSome = true
          ∨ ∃ k v, splitFirst? "=" line = some (k, v) ∧ pyStrip k = key) := by
      unfold outputsLineStep
      split
      · rename_i k v hsplit
        by_cases hk : pyStrip k = key
        · subst hk
          rw [dictGet_update_self]
          simp only [Option.isSome_some, true_iff]
          exact Or.inr ⟨k, v, hsplit, rfl⟩
        · rw [dictGet_update_ne _ _ _ _ hk]
          constructor
          · exact fun h => Or.inl h
          · rintro (h | ⟨k2, v2, hs2, hk2⟩)
            · exact h
            · rw [hsplit] at hs2
              cases hs2
              exact absurd hk2 hk
      · rename_i hsplit
        constructor
        · exact fun h => Or.inl h
        · rintro (h | ⟨k2, v2, hs2, _⟩)
          · exact h
          · rw [hsplit] at hs2; cases hs2
    rw [hstep]
    constructor
    · rintro ((h | h) | h)
      · exact Or.inl h
      · exact Or.inr ⟨line, List.mem_cons_self line rest, h⟩
      · obtain ⟨l2, hl2, rest2⟩ := h
        exact Or.inr ⟨l2, List.mem_cons_of_mem line hl2, rest2⟩
    · rintro (h | ⟨l2, hl2, rest2⟩)
      · exact Or.inl (Or.inl h)
      · rcases List.mem_cons.mp hl2 with heq | hmem
        · subst heq
          exact Or.inl (Or.inr rest2)
        · exact Or.inr ⟨l2, hmem, rest2⟩

/-- C5 counterexample: the source strips both sides of the first `=`
(`outputs[key.strip()] = value.strip()`), so on the line `a = b` the
recorded entry is `("a", "b")`, not the verbatim `("a ", " b")` that
splitting with no further transformation would produce. -/
theorem parse_outputs_not_verbatim :
    parseOutputsFile ["a = b"] = [("a", "b")]
      ∧ parseOutputsFile ["a = b"] ≠ [("a ", " b")] := by
  constructor
  · rfl
  · decide

/-- C5 amended: for every successful command step whose outputs-sink file
exists, each line containing a `=` contributes one output entry obtained by
splitting the line at its first `=`, with the key being the text before it
and the value the text after it, each stripped of surrounding whitespace
(later lines with the same stripped key overwrite earlier ones); exactly
the lines containing `=` contribute entries. -/
theorem parse_outputs_entries (lines : List String) :
    (∀ pre line post k v, lines = pre ++ line :: post →
      splitFirst? "=" line = some (k, v) →
      (∀ line2 ∈ post, ∀ k2 v2, splitFirst? "=" line2 = some (k2, v2) →
        pyStrip k2 ≠ pyStrip k) →
      dictGet (parseOutputsFile lines) (pyStrip k) = some (pyStrip v))
    ∧ (∀ key, (dictGet (parseOutputsFile lines) key).isSome = true ↔
        ∃ line ∈ lines, ∃ k v, splitFirst? "=" line = some (k, v) ∧ pyStrip k = key) := by
  constructor
  · intro pre line post k v hdec hsplit hlater
    subst hdec
    unfold parseOutputsFile
    rw [List.foldl_append, List.foldl_cons]
    rw [parseOutputs_fold_no_contrib post _ _ hlater]
    unfold outputsLineStep
    rw [hsplit]
    exact dictGet_update_self _ _ _
  · intro key
    unfold parseOutputsFile
    rw [parseOutputs_fold_isSome]
    simp [dictGet]

/-- Witness for C5's amended claim at the concrete file
`a = b (newline) noequals`: the `=`-line contributes the stripped entry and
the `=`-free line contributes nothing. -/
theorem parse_outputs_entries_witness :
    dictGet (parseOutputsFile ["a = b ", "noequals"]) "a" = some "b"
    ∧ ¬ ((dictGet (parseOutputsFile ["a = b ", "noequals"]) "noequals").isSome = true) := by
  constructor
  · have h := (parse_outputs_entries ["a = b ", "noequals"]).1
      [] "a = b " ["noequals"] "a " " b " rfl rfl
      (by intro line2 h2 k2 v2 hs2
          simp only [List.mem_singleton] at h2
          subst h2
          simp [splitFirst?, splitFirstL, List.isPrefixOf] at hs2)
    exact h
  · rw [(parse_outputs_entries ["a = b ", "noequals"]).2]
    rintro ⟨line, hline, k, v, hsplit, hk⟩
    rcases List.mem_cons.mp hline with heq | hmem
    · subst heq
      cases hsplit
      revert hk
      decide
    · simp only [List.mem_singleton] at hmem
      subst hmem
      simp [splitFirst?, splitFirstL, List.isPrefixOf] at hsplit

/-! ## Claim C4: coordination files read back as outputs -/

theorem coordFold_get_not_mem (files : List String) (fs : String → Option String)
    (outs : List (String × String)) (k : String) (hk : k ∉ files) :
    dictGet (files.foldl (coordStep fs) outs) k = dictGet outs k := by
  induction files generalizing outs with
  | nil => rfl
  | cons f rest ih =>
    rw [List.foldl_cons]
    rw [ih _ (fun h => hk (List.mem_cons_of_mem f h))]
    unfold coordStep
    split
    · exact dictGet_update_ne _ _ _ _ (fun h => hk (h ▸ List.mem_cons_self f rest))
    · rfl

theorem coordFold_get_mem (files : List String) (fs : String → Option String)
    (outs : List (String × String)) (name content : String)
    (hnd : files.Nodup) (hmem : name ∈ files) (hfs : fs name = some content) :
    dictGet (files.foldl (coordStep fs) outs) name = some (pyStrip content) := by
  induction files generalizing outs with
  | nil => cases hmem
  | cons f rest ih =>
    rw [List.foldl_cons]
    rcases List.mem_cons.mp hmem with heq | hmem2
    · subst heq
      have hnotin : name ∉ rest := (List.nodup_cons.mp hnd).1
      rw [coordFold_get_not_mem rest fs _ name hnotin]
      unfold coordStep
      rw [hfs]
      exact dictGet_update_self _ _ _
    · exact ih _ (List.nodup_cons.mp hnd).2 hmem2

/-- C4 counterexample: with `job.started` present in the working directory
(and nothing else), neither a successful command step's output map nor a
successful job-runner action's output map contains a `job.started` entry —
the read-back loops only name `HOSTNAME`, `SESSION_PORT`, `slug`
(respectively `HOSTNAME`, `SESSION_PORT`). -/
theorem job_started_never_read_back :
    (fun n => if n = "job.started" then some "x" else none : String → Option String)
        "job.started" = some "x"
    ∧ dictGet (run_shell_command_outputs
        (fun n => if n = "job.started" then some "x" else none)) "job.started" = none
    ∧ dictGet (job_runner_outputs
        (fun n => if n = "job.started" then some "x" else none)) "job.started" = none := by
  refine ⟨rfl, ?_, ?_⟩ <;> rfl

/-- C4 amended: for every successful command step, each of the coordination
files `HOSTNAME`, `SESSION_PORT` and `slug` (but not `job.started`, which
the engine never reads back) that exists in the working directory
contributes an entry keyed by the filename whose value is the file's text
with surrounding whitespace trimmed; keys different from those three file
names are exactly as the outputs-sink parse left them. For a successful
job-runner action the same holds for `HOSTNAME` and `SESSION_PORT` read
into an empty map. -/
theorem coordination_files_read_back (fs : String → Option String) :
    (∀ name content, name ∈ ["HOSTNAME", "SESSION_PORT", "slug"] →
      fs name = some content →
      dictGet (run_shell_command_outputs fs) name = some (pyStrip content))
    ∧ (∀ k, k ∉ ["HOSTNAME", "SESSION_PORT", "slug"] →
      dictGet (run_shell_command_outputs fs) k = dictGet (sinkOutputs fs) k)
    ∧ (∀ name content, name ∈ ["HOSTNAME", "SESSION_PORT"] →
      fs name = some content →
      dictGet (job_runner_outputs fs) name = some (pyStrip content)) := by
  refine ⟨?_, ?_, ?_⟩
  · intro name content hmem hfs
    exact coordFold_get_mem _ fs _ name content (by decide) hmem hfs
  · intro k hk
    exact coordFold_get_not_mem _ fs _ k hk
  · intro name content hmem hfs
    exact coordFold_get_mem _ fs _ name content (by decide) hmem hfs

/-- A concrete working directory: `HOSTNAME` (with trailing newline),
`slug`, and an outputs-sink file declaring the unrelated key `other`. -/
def coordWitnessFs : String → Option String := fun n =>
  if n = "HOSTNAME" then some "node1\n"
  else if n = "slug" then some "abc"
  else if n = "step_outputs.txt" then some "other=1\n"
  else none

/-- Witness for C4's amended claim: a working directory holding
`HOSTNAME` (with trailing newline), `slug` and an outputs-sink file with
an unrelated key `other`; the coordination files appear stripped and the
unrelated key survives. -/
theorem coordination_files_read_back_witness :
    dictGet (run_shell_command_outputs coordWitnessFs) "HOSTNAME" = some "node1"
    ∧ dictGet (run_shell_command_outputs coordWitnessFs) "slug" = some "abc"
    ∧ dictGet (run_shell_command_outputs coordWitnessFs) "other"
        = dictGet (sinkOutputs coordWitnessFs) "other"
    ∧ dictGet (job_runner_outputs coordWitnessFs) "HOSTNAME" = some "node1" := by
  refine ⟨?_, ?_, ?_, ?_⟩
  · exact (coordination_files_read_back coordWitnessFs).1 "HOSTNAME" "node1\n"
      (by decide) rfl
  · exact (coordination_files_read_back coordWitnessFs).1 "slug" "abc" (by decide) rfl
  · exact (coordination_files_read_back coordWitnessFs).2.1 "other" (by decide)
  · exact (coordination_files_read_back coordWitnessFs).2.2 "HOSTNAME" "node1\n"
      (by decide) rfl

/-! ## Toolkit: evaluator fuel irrelevance -/

theorem splitAllFuel_length_le (c : Char) (cs : List Char) :
    ∀ fuel l p, p ∈ splitAllFuel c cs fuel l → p.length ≤ l.length := by
  intro fuel
  induction fuel with
  | zero =>
    intro l p hp
    simp only [splitAllFuel, List.mem_singleton] at hp
    subst hp; exact Nat.le_refl _
  | succ f ih =>
    intro l p hp
    rw [splitAllFuel] at hp
    revert hp
    cases hsp : splitFirstL (c :: cs) l with
    | none =>
      intro hp
      simp only [List.mem_singleton] at hp
      subst hp; exact Nat.le_refl _
    | some x =>
      obtain ⟨a, b⟩ := x
      intro hp
      have hlen := splitFirstL_eq_append (c :: cs) l a b hsp
      rcases List.mem_cons.mp hp with heq | hmem
      · subst heq
        rw [hlen]; simp only [List.append_assoc, List.length_append]; omega
      · have := ih b p hmem
        rw [hlen]; simp only [List.append_assoc, List.length_append]; omega

theorem splitAllStr_length_lt {sep s : String} {c : Char} {cs : List Char}
    (hsep : sep.toList = c :: cs) {x : String × String}
    (hocc : splitFirst? sep s = some x) :
    ∀ p ∈ splitAllStr sep s, p.length < s.length := by
  intro p hp
  unfold splitAllStr at hp
  rw [hsep] at hp
  simp only [List.mem_map] at hp
  obtain ⟨pl, hpl, hpeq⟩ := hp
  subst hpeq
  unfold splitAllL at hpl
  have hsp : ∃ a b, splitFirstL (c :: cs) s.toList = some (a, b) := by
    unfold splitFirst? at hocc
    rw [hsep] at hocc
    revert hocc
    cases h : splitFirstL (c :: cs) s.toList with
    | none => intro hocc; cases hocc
    | some y =>
      obtain ⟨a, b⟩ := y
      exact fun _ => ⟨a, b, rfl⟩
  obtain ⟨a, b, hsp⟩ := hsp
  have hlen := splitFirstL_eq_append (c :: cs) s.toList a b hsp
  rw [show s.toList.length + 1 = s.toList.length + 1 from rfl, splitAllFuel] at hpl
  rw [hsp] at hpl
  simp only [strLength_eq, toList_strMk]
  rcases List.mem_cons.mp hpl with heq | hmem
  · subst heq
    rw [hlen]; simp only [List.append_assoc, List.length_append, List.length_cons]; omega
  · have := splitAllFuel_length_le c cs _ b pl hmem
    rw [hlen]; simp only [List.append_assoc, List.length_append, List.length_cons]; omega

theorem list_any_congr {α : Type} (L : List α) (f g : α → Bool)
    (h : ∀ x ∈ L, f x = g x) : L.any f = L.any g := by
  induction L with
  | nil => rfl
  | cons x rest ih =>
    simp only [List.any_cons]
    rw [h x (List.mem_cons_self x rest),
      ih (fun y hy => h y (List.mem_cons_of_mem x hy))]

theorem list_all_congr {α : Type} (L : List α) (f g : α → Bool)
    (h : ∀ x ∈ L, f x = g x) : L.all f = L.all g := by
  induction L with
  | nil => rfl
  | cons x rest ih =>
    simp only [List.all_cons]
    rw [h x (List.mem_cons_self x rest),
      ih (fun y hy => h y (List.mem_cons_of_mem x hy))]

/-- The fuel `evaluate_expression` supplies is irrelevant beyond the
expression's length: every recursive call strictly shrinks the string. -/
theorem evalFuel_congr (ctx : Ctx) (extra : List (String × Value)) :
    ∀ f g s, s.length < f → s.length < g →
      evalFuel ctx extra f s = evalFuel ctx extra g s := by
  intro f
  induction f with
  | zero => intro g s hf; exact absurd hf (Nat.not_lt_zero _)
  | succ f ih =>
    intro g s hf hg
    cases g with
    | zero => exact absurd hg (Nat.not_lt_zero _)
    | succ g' =>
      rw [evalFuel, evalFuel]
      cases hsp : splitFirst? " != " s with
      | some p =>
        obtain ⟨l, r⟩ := p
        simp only
        have hl : (pyStrip l).length < s.length :=
          Nat.lt_of_le_of_lt (pyStrip_length_le l) (splitFirst?_left_lt (by decide) hsp)
        rw [ih g' (pyStrip l) (by omega) (by omega)]
      | none =>
        simp only
        cases hsp2 : splitFirst? " == " s with
        | some p =>
          obtain ⟨l, r⟩ := p
          simp only
          have hl : (pyStrip l).length < s.length :=
            Nat.lt_of_le_of_lt (pyStrip_length_le l) (splitFirst?_left_lt (by decide) hsp2)
          rw [ih g' (pyStrip l) (by omega) (by omega)]
        | none =>
          simp only
          by_cases hor : strContains " || " s
          · rw [if_pos hor, if_pos hor]
            have hocc : ∃ x, splitFirst? " || " s = some x := by
              unfold strContains at hor
              cases h : splitFirst? " || " s with
              | none => rw [h] at hor; cases hor
              | some x => exact ⟨x, rfl⟩
            obtain ⟨x, hocc⟩ := hocc
            congr 1
            apply list_any_congr
            intro p hp
            have hplt : p.length < s.length := splitAllStr_length_lt rfl hocc p hp
            have : (pyStrip p).length < s.length :=
              Nat.lt_of_le_of_lt (pyStrip_length_le p) hplt
            rw [ih g' (pyStrip p) (by omega) (by omega)]
          · rw [if_neg hor, if_neg hor]
            by_cases hand : strContains " && " s
            · rw [if_pos hand, if_pos hand]
              have hocc : ∃ x, splitFirst? " && " s = some x := by
                unfold strContains at hand
                cases h : splitFirst? " && " s with
                | none => rw [h] at hand; cases hand
                | some x => exact ⟨x, rfl⟩
              obtain ⟨x, hocc⟩ := hocc
              congr 1
              apply list_all_congr
              intro p hp
              have hplt : p.length < s.length := splitAllStr_length_lt rfl hocc p hp
              have : (pyStrip p).length < s.length :=
                Nat.lt_of_le_of_lt (pyStrip_length_le p) hplt
              rw [ih g' (pyStrip p) (by omega) (by omega)]
            · rw [if_neg hand, if_neg hand]

/-! ## Toolkit: one-step equations for `evaluate_expression` -/

theorem eval_ne_some {ctx : Ctx} {extra : List (String × Value)} {expr l r : String}
    (h : splitFirst? " != " expr = some (l, r)) :
    evaluate_expression ctx extra expr =
      .bool (!pyEqLit (evaluate_expression ctx extra (pyStrip l))
        (parse_literal (pyStrip r))) := by
  unfold evaluate_expression
  simp only [evalFuel, h]
  have hl : (pyStrip l).length < expr.length :=
    Nat.lt_of_le_of_lt (pyStrip_length_le l) (splitFirst?_left_lt (by decide) h)
  rw [evalFuel_congr ctx extra expr.length ((pyStrip l).length + 1) (pyStrip l) hl
    (Nat.lt_succ_self _)]
  rfl

theorem eval_eq_some {ctx : Ctx} {extra : List (String × Value)} {expr l r : String}
    (h1 : splitFirst? " != " expr = none)
    (h2 : splitFirst? " == " expr = some (l, r)) :
    evaluate_expression ctx extra expr =
      .bool (pyEqLit (evaluate_expression ctx extra (pyStrip l))
        (parse_literal (pyStrip r))) := by
  unfold evaluate_expression
  simp only [evalFuel, h1, h2]
  have hl : (pyStrip l).length < expr.length :=
    Nat.lt_of_le_of_lt (pyStrip_length_le l) (splitFirst?_left_lt (by decide) h2)
  rw [evalFuel_congr ctx extra expr.length ((pyStrip l).length + 1) (pyStrip l) hl
    (Nat.lt_succ_self _)]
  rfl

theorem eval_or_contains {ctx : Ctx} {extra : List (String × Value)} {expr : String}
    (h1 : splitFirst? " != " expr = none)
    (h2 : splitFirst? " == " expr = none)
    (h3 : strContains " || " expr = true) :
    evaluate_expression ctx extra expr =
      .bool ((splitAllStr " || " expr).any fun p =>
        pyTruthy (evaluate_expression ctx extra (pyStrip p))) := by
  unfold evaluate_expression
  simp only [evalFuel, h1, h2, if_pos h3]
  have hocc : ∃ x, splitFirst? " || " expr = some x := by
    unfold strContains at h3
    cases h : splitFirst? " || " expr with
    | none => rw [h] at h3; cases h3
    | some y =>
      obtain ⟨a, b⟩ := y
      exact ⟨(a, b), rfl⟩
  obtain ⟨x, hocc⟩ := hocc
  congr 1
  apply list_any_congr
  intro p hp
  have hplt : p.length < expr.length := splitAllStr_length_lt rfl hocc p hp
  have hsl : (pyStrip p).length < expr.length :=
    Nat.lt_of_le_of_lt (pyStrip_length_le p) hplt
  rw [evalFuel_congr ctx extra expr.length ((pyStrip p).length + 1) (pyStrip p) hsl
    (Nat.lt_succ_self _)]
  rfl

theorem eval_and_contains {ctx : Ctx} {extra : List (String × Value)} {expr : String}
    (h1 : splitFirst? " != " expr = none)
    (h2 : splitFirst? " == " expr = none)
    (h3 : strContains " || " expr = false)
    (h4 : strContains " && " expr = true) :
    evaluate_expression ctx extra expr =
      .bool ((splitAllStr " && " expr).all fun p =>
        pyTruthy (evaluate_expression ctx extra (pyStrip p))) := by
  unfold evaluate_expression
  simp only [evalFuel, h1, h2, h3, Bool.false_eq_true, if_false, if_pos h4]
  have hocc : ∃ x, splitFirst? " && " expr = some x := by
    unfold strContains at h4
    cases h : splitFirst? " && " expr with
    | none => rw [h] at h4; cases h4
    | some y =>
      obtain ⟨a, b⟩ := y
      exact ⟨(a, b), rfl⟩
  obtain ⟨x, hocc⟩ := hocc
  congr 1
  apply list_all_congr
  intro p hp
  have hplt : p.length < expr.length := splitAllStr_length_lt rfl hocc p hp
  have hsl : (pyStrip p).length < expr.length :=
    Nat.lt_of_le_of_lt (pyStrip_length_le p) hplt
  rw [evalFuel_congr ctx extra expr.length ((pyStrip p).length + 1) (pyStrip p) hsl
    (Nat.lt_succ_self _)]
  rfl

theorem eval_inputs_branch {ctx : Ctx} {extra : List (String × Value)} {expr : String}
    (h1 : splitFirst? " != " expr = none)
    (h2 : splitFirst? " == " expr = none)
    (h3 : strContains " || " expr = false)
    (h4 : strContains " && " expr = false)
    (hpre : startsWithStr "inputs." expr = true) :
    evaluate_expression ctx extra expr =
      get_nested_value (.dict ctx.inputs) (strDrop expr 7) := by
  unfold evaluate_expression
  simp only [evalFuel, h1, h2, h3, h4, Bool.false_eq_true, if_false, if_pos hpre]

theorem eval_needs_branch {ctx : Ctx} {extra : List (String × Value)} {expr : String}
    (h1 : splitFirst? " != " expr = none)
    (h2 : splitFirst? " == " expr = none)
    (h3 : strContains " || " expr = false)
    (h4 : strContains " && " expr = false)
    (hin : startsWithStr "inputs." expr = false)
    (hses : startsWithStr "sessions." expr = false)
    (hpre : startsWithStr "needs." expr = true) :
    evaluate_expression ctx extra expr =
      (let parts := splitAllStr "." (strDrop expr 6)
       if 3 ≤ parts.length && parts.getD 1 "" == "outputs" then
         match dictGet ctx.job_outputs (parts.getD 0 "") with
         | some jo => .str ((dictGet jo.outputs (pyJoin "." (parts.drop 2))).getD "")
         | none => .str ""
       else .str "") := by
  unfold evaluate_expression
  simp only [evalFuel, h1, h2, h3, h4, hin, hses, Bool.false_eq_true, if_false,
    if_pos hpre]

theorem parse_literal_quoted (q s : String) (hq : q = sqS ∨ q = dqS) :
    parse_literal (q ++ s ++ q) = .str s := by
  obtain ⟨qc, hqc⟩ : ∃ qc, q.toList = [qc] := by
    rcases hq with h | h <;> subst h <;> exact ⟨_, rfl⟩
  have htl : (q ++ s ++ q).toList = qc :: (s.toList ++ [qc]) := by
    rw [toList_append, toList_append, hqc]
    simp
  have hstart : startsWithStr q (q ++ s ++ q) = true := by
    unfold startsWithStr
    rw [hqc, htl]
    exact List.isPrefixOf_iff_prefix.mpr ⟨s.toList ++ [qc], rfl⟩
  have hend : endsWithStr q (q ++ s ++ q) = true := by
    unfold endsWithStr
    rw [hqc, htl]
    refine List.isSuffixOf_iff_suffix.mpr ⟨qc :: s.toList, ?_⟩
    simp
  have hdrop : strDropEnds (q ++ s ++ q) = s := by
    unfold strDropEnds
    rw [htl]
    simp only [List.drop_succ_cons, List.drop_zero, List.dropLast_concat]
    exact strMk_toList s
  have hcond : (startsWithStr sqS (q ++ s ++ q) && endsWithStr sqS (q ++ s ++ q)
      || startsWithStr dqS (q ++ s ++ q) && endsWithStr dqS (q ++ s ++ q)) = true := by
    rcases hq with h | h
    · rw [show sqS = q from h.symm, hstart, hend]
      rfl
    · rw [show dqS = q from h.symm, hstart, hend]
      simp
  unfold parse_literal
  rw [hcond, hdrop]
  simp

/-! ## Claim C6: staged dispatch order and literal-only right-hand sides -/

/-- C6: evaluation dispatches by staged pattern matching in the literal
order ` != `, ` == `, ` || `, ` && `, then property-path prefixes (shown
here for `inputs.`); for a comparison the left side is recursively
evaluated as an expression while the right side goes through
`_parse_literal` only — whose stages are: matching quotes stripped to a
string, `true`/`false` to booleans, the empty string to itself, else an
attempted integer parse, else the raw text. -/
theorem evaluate_expression_dispatch (ctx : Ctx) (extra : List (String × Value))
    (expr l r s v : String) :
    (splitFirst? " != " expr = some (l, r) →
      evaluate_expression ctx extra expr =
        .bool (!pyEqLit (evaluate_expression ctx extra (pyStrip l))
          (parse_literal (pyStrip r))))
    ∧ (splitFirst? " != " expr = none → splitFirst? " == " expr = some (l, r) →
      evaluate_expression ctx extra expr =
        .bool (pyEqLit (evaluate_expression ctx extra (pyStrip l))
          (parse_literal (pyStrip r))))
    ∧ (splitFirst? " != " expr = none → splitFirst? " == " expr = none →
      strContains " || " expr = true →
      evaluate_expression ctx extra expr =
        .bool ((splitAllStr " || " expr).any fun p =>
          pyTruthy (evaluate_expression ctx extra (pyStrip p))))
    ∧ (splitFirst? " != " expr = none → splitFirst? " == " expr = none →
      strContains " || " expr = false → strContains " && " expr = true →
      evaluate_expression ctx extra expr =
        .bool ((splitAllStr " && " expr).all fun p =>
          pyTruthy (evaluate_expression ctx extra (pyStrip p))))
    ∧ (splitFirst? " != " expr = none → splitFirst? " == " expr = none →
      strContains " || " expr = false → strContains " && " expr = false →
      startsWithStr "inputs." expr = true →
      evaluate_expression ctx extra expr =
        get_nested_value (.dict ctx.inputs) (strDrop expr 7))
    ∧ parse_literal (sqS ++ s ++ sqS) = .str s
    ∧ parse_literal (dqS ++ s ++ dqS) = .str s
    ∧ parse_literal "true" = .bool true
    ∧ parse_literal "false" = .bool false
    ∧ parse_literal "" = .str ""
    ∧ (((startsWithStr sqS v && endsWithStr sqS v)
          || (startsWithStr dqS v && endsWithStr dqS v)) = false →
        v ≠ "true" → v ≠ "false" → v ≠ "" →
        parse_literal v =
          (match pyInt? v with
           | some n => .int n
           | none => .str v)) := by
  refine ⟨fun h => eval_ne_some h, fun h1 h2 => eval_eq_some h1 h2,
    fun h1 h2 h3 => eval_or_contains h1 h2 h3,
    fun h1 h2 h3 h4 => eval_and_contains h1 h2 h3 h4,
    fun h1 h2 h3 h4 h5 => eval_inputs_branch h1 h2 h3 h4 h5,
    ?_, ?_, rfl, rfl, rfl, ?_⟩
  · exact parse_literal_quoted sqS s (Or.inl rfl)
  · exact parse_literal_quoted dqS s (Or.inr rfl)
  · intro hq ht hf he
    unfold parse_literal
    rw [hq]
    simp only [Bool.false_eq_true, if_false, if_neg ht, if_neg hf, if_neg he]

/-- Witness for C6, at concrete expressions: `x == 1 != 2` splits at
` != ` first (so ` != ` has priority over ` == `), a quoted literal is
stripped to its body, and a plain number on the right parses as an
integer. -/
theorem evaluate_expression_dispatch_witness :
    evaluate_expression {} [] "x == 1 != 2" =
      .bool (!pyEqLit (evaluate_expression {} [] (pyStrip "x == 1"))
        (parse_literal (pyStrip "2")))
    ∧ parse_literal (sqS ++ "slurm" ++ sqS) = .str "slurm"
    ∧ (parse_literal "17" = (match pyInt? "17" with
        | some n => .int n
        | none => .str "17")) := by
  refine ⟨?_, ?_, ?_⟩
  · exact (evaluate_expression_dispatch {} [] "x == 1 != 2" "x == 1" "2" "" "").1 rfl
  · exact (evaluate_expression_dispatch {} [] "" "" "" "slurm" "").2.2.2.2.2.1
  · exact (evaluate_expression_dispatch {} [] "" "" "" "" "17").2.2.2.2.2.2.2.2.2.2
      (by decide) (by decide) (by decide) (by decide)

/-! ## Claim C9: booleans interpolate as `True`/`False` -/

/-- The context of the spec's example: inputs
`{resource: {schedulerType: "slurm"}}`. -/
def slurmCtx : Ctx :=
  { inputs := [("resource", .dict [("schedulerType", .str "slurm")])] }

/-- C9: an embedded expression evaluating to a boolean interpolates as the
capitalized `True`/`False`; in particular, with
`inputs.resource.schedulerType = "slurm"`, the template
`${{ inputs.resource.schedulerType == 'slurm' }}` resolves to the text
`True`, the `== 'pbs'` variant to `False` and the `!= ''` variant to
`True`. -/
theorem boolean_results_interpolate_capitalized :
    (∀ b, pyStr (.bool b) = if b then "True" else "False")
    ∧ substitute_string slurmCtx []
        ("$\x7b\x7b inputs.resource.schedulerType == " ++ sqS ++ "slurm" ++ sqS
          ++ " \x7d\x7d") = "True"
    ∧ substitute_string slurmCtx []
        ("$\x7b\x7b inputs.resource.schedulerType == " ++ sqS ++ "pbs" ++ sqS
          ++ " \x7d\x7d") = "False"
    ∧ substitute_string slurmCtx []
        ("$\x7b\x7b inputs.resource.schedulerType != " ++ sqS ++ sqS
          ++ " \x7d\x7d") = "True" := by
  refine ⟨fun b => ?_, rfl, rfl, rfl⟩
  cases b <;> rfl

/-! ## Toolkit: dotted-path splitting and joining -/

theorem strExt {a b : String} (h : a.toList = b.toList) : a = b := by
  cases a with
  | mk d1 =>
    cases b with
    | mk d2 => exact congrArg String.mk h

theorem startsWithStr_append (p t : String) : startsWithStr p (p ++ t) = true := by
  unfold startsWithStr
  rw [toList_append]
  exact List.isPrefixOf_iff_prefix.mpr ⟨t.toList, rfl⟩

theorem startsWithStr_false_head {p s : String} {cp c : Char} {tp t : List Char}
    (hp : p.toList = cp :: tp) (hs : s.toList = c :: t) (hne : (cp == c) = false) :
    startsWithStr p s = false := by
  unfold startsWithStr
  rw [hp, hs]
  simp [List.isPrefixOf, hne]

theorem strContains_false_of_none {sep s : String} (h : splitFirst? sep s = none) :
    strContains sep s = false := by
  unfold strContains
  rw [h]
  rfl

theorem strDrop_prefix_len (p t : String) : strDrop (p ++ t) p.toList.length = t := by
  unfold strDrop
  rw [toList_append, List.drop_left]
  exact strMk_toList t

theorem splitFirstL_single_boundary (c : Char) (a r : List Char) (ha : c ∉ a) :
    splitFirstL [c] (a ++ c :: r) = some (a, r) := by
  induction a with
  | nil =>
    rw [List.nil_append, splitFirstL]
    have hpre : [c].isPrefixOf (c :: r) = true := by simp [List.isPrefixOf]
    rw [if_pos hpre]
    rfl
  | cons x xs ih =>
    have hxc : x ≠ c := fun h => ha (h ▸ List.mem_cons_self x xs)
    rw [List.cons_append, splitFirstL]
    have hpre : [c].isPrefixOf (x :: (xs ++ c :: r)) = false := by
      simp [List.isPrefixOf]
      exact fun h => absurd h.symm hxc
    rw [hpre]
    simp only [Bool.false_eq_true, if_false]
    rw [ih (fun h => ha (List.mem_cons_of_mem x h))]

theorem splitAllFuel_congr (c : Char) (cs : List Char) :
    ∀ f g l, l.length < f → l.length < g →
      splitAllFuel c cs f l = splitAllFuel c cs g l := by
  intro f
  induction f with
  | zero => intro g l hf; exact absurd hf (Nat.not_lt_zero _)
  | succ f ih =>
    intro g l hf hg
    cases g with
    | zero => exact absurd hg (Nat.not_lt_zero _)
    | succ g' =>
      cases hsp : splitFirstL (c :: cs) l with
      | none => simp only [splitAllFuel, hsp]
      | some x =>
        obtain ⟨a, b⟩ := x
        have hlen := splitFirstL_eq_append (c :: cs) l a b hsp
        have hb : b.length < l.length := by
          rw [hlen]
          simp only [List.append_assoc, List.length_append, List.length_cons]
          omega
        simp only [splitAllFuel, hsp]
        rw [ih g' b (by omega) (by omega)]

theorem splitAllFuel_ne_nil (c : Char) (cs : List Char) (fuel : Nat) (l : List Char) :
    splitAllFuel c cs fuel l ≠ [] := by
  cases fuel with
  | zero => simp [splitAllFuel]
  | succ f =>
    rw [splitAllFuel]
    cases splitFirstL (c :: cs) l with
    | none => simp
    | some x => obtain ⟨a, b⟩ := x; simp

theorem splitAllL_boundary (c : Char) (a r : List Char) (ha : c ∉ a) :
    splitAllL c [] (a ++ c :: r) = a :: splitAllL c [] r := by
  unfold splitAllL
  simp only [splitAllFuel, splitFirstL_single_boundary c a r ha]
  have hr : r.length < (a ++ c :: r).length := by
    simp only [List.length_append, List.length_cons]; omega
  rw [splitAllFuel_congr c [] _ (r.length + 1) r (by omega) (Nat.lt_succ_self _)]
  rfl

theorem joinL_splitAllFuel (c : Char) (cs : List Char) :
    ∀ fuel l, l.length < fuel → joinL (c :: cs) (splitAllFuel c cs fuel l) = l := by
  intro fuel
  induction fuel with
  | zero => intro l hf; exact absurd hf (Nat.not_lt_zero _)
  | succ f ih =>
    intro l hf
    cases hsp : splitFirstL (c :: cs) l with
    | none => simp only [splitAllFuel, hsp, joinL]
    | some x =>
      obtain ⟨a, b⟩ := x
      have hlen := splitFirstL_eq_append (c :: cs) l a b hsp
      have hb : b.length < l.length := by
        rw [hlen]
        simp only [List.append_assoc, List.length_append, List.length_cons]
        omega
      obtain ⟨p, ps, hps⟩ : ∃ p ps, splitAllFuel c cs f b = p :: ps := by
        cases h : splitAllFuel c cs f b with
        | nil => exact absurd h (splitAllFuel_ne_nil c cs f b)
        | cons p ps => exact ⟨p, ps, rfl⟩
      simp only [splitAllFuel, hsp, hps, joinL]
      rw [← hps, ih b (by omega), hlen]

theorem splitAllStr_ne_nil_dot (y : String) : splitAllStr "." y ≠ [] := by
  unfold splitAllStr splitAllL
  simp only [show ("." : String).toList = ['.'] from rfl]
  intro h
  exact splitAllFuel_ne_nil '.' [] (y.toList.length + 1) y.toList (List.map_eq_nil_iff.mp h)

theorem pyJoin_splitAllStr_dot (y : String) :
    pyJoin "." (splitAllStr "." y) = y := by
  apply strExt
  unfold pyJoin splitAllStr splitAllL
  simp only [show ("." : String).toList = ['.'] from rfl]
  rw [toList_strMk, List.map_map]
  have hmap : (String.toList ∘ fun l => (⟨l⟩ : String)) = id := by
    funext l; rfl
  rw [hmap, List.map_id]
  exact joinL_splitAllFuel '.' [] (y.toList.length + 1) y.toList (Nat.lt_succ_self _)


/-! ## Claim C7: `needs.X.outputs.Y` resolution -/

/-- C7: for a job name `X` (identifier-like: no dot, no space) and output
key `Y` (which may contain dots; no space), `needs.X.outputs.Y` evaluates
to the recorded output value when job `X` has a recorded `JobOutput` with
an output named `Y` — regardless of that JobOutput's success flag, so
partial outputs of a failed job are readable — and to the empty string
when no such JobOutput or no such key is recorded. -/
theorem needs_output_resolution (ctx : Ctx) (extra : List (String × Value)) (X Y : String)
    (hX1 : ' ' ∉ X.toList) (hX2 : '.' ∉ X.toList) (hY : ' ' ∉ Y.toList) :
    evaluate_expression ctx extra ("needs." ++ X ++ ".outputs." ++ Y) =
      .str (match dictGet ctx.job_outputs X with
            | some jo => (dictGet jo.outputs Y).getD ""
            | none => "") := by
  have hEtl : ("needs." ++ X ++ ".outputs." ++ Y).toList =
      "needs.".toList ++ (X.toList ++ (".outputs.".toList ++ Y.toList)) := by
    simp [toList_append]
  have hspace : ' ' ∉ ("needs." ++ X ++ ".outputs." ++ Y).toList := by
    rw [hEtl]
    simp only [List.mem_append, not_or]
    exact ⟨by decide, hX1, by decide, hY⟩
  have h1 : splitFirst? " != " ("needs." ++ X ++ ".outputs." ++ Y) = none :=
    splitFirst?_none_of_not_mem (by decide) hspace
  have h2 : splitFirst? " == " ("needs." ++ X ++ ".outputs." ++ Y) = none :=
    splitFirst?_none_of_not_mem (by decide) hspace
  have h3 : strContains " || " ("needs." ++ X ++ ".outputs." ++ Y) = false :=
    strContains_false_of_none (splitFirst?_none_of_not_mem (by decide) hspace)
  have h4 : strContains " && " ("needs." ++ X ++ ".outputs." ++ Y) = false :=
    strContains_false_of_none (splitFirst?_none_of_not_mem (by decide) hspace)
  have hE2 : ("needs." ++ X ++ ".outputs." ++ Y) =
      "needs." ++ (X ++ (".outputs." ++ Y)) := by
    apply strExt
    simp [toList_append]
  have hcons : ("needs." ++ X ++ ".outputs." ++ Y).toList =
      'n' :: ("eeds.".toList ++ (X.toList ++ (".outputs.".toList ++ Y.toList))) := by
    rw [hEtl]
    rfl
  have hin : startsWithStr "inputs." ("needs." ++ X ++ ".outputs." ++ Y) = false :=
    startsWithStr_false_head rfl hcons (by decide)
  have hses : startsWithStr "sessions." ("needs." ++ X ++ ".outputs." ++ Y) = false :=
    startsWithStr_false_head rfl hcons (by decide)
  have hpre : startsWithStr "needs." ("needs." ++ X ++ ".outputs." ++ Y) = true := by
    rw [hE2]
    exact startsWithStr_append _ _
  rw [eval_needs_branch h1 h2 h3 h4 hin hses hpre]
  have hdrop : strDrop ("needs." ++ X ++ ".outputs." ++ Y) 6 = X ++ (".outputs." ++ Y) := by
    rw [hE2]
    exact strDrop_prefix_len "needs." _
  have hparts : splitAllStr "." (strDrop ("needs." ++ X ++ ".outputs." ++ Y) 6) =
      X :: "outputs" :: splitAllStr "." Y := by
    rw [hdrop]
    unfold splitAllStr
    simp only [show ("." : String).toList = ['.'] from rfl]
    have ht : (X ++ (".outputs." ++ Y)).toList =
        X.toList ++ '.' :: ("outputs".toList ++ ('.' :: Y.toList)) := by
      rw [toList_append, toList_append]
      rfl
    rw [ht, splitAllL_boundary '.' _ _ hX2, splitAllL_boundary '.' _ _ (by decide)]
    simp only [List.map_cons]
    rw [strMk_toList X, strMk_toList "outputs"]
  have hYlen : 1 ≤ (splitAllStr "." Y).length :=
    List.length_pos.mpr (splitAllStr_ne_nil_dot Y)
  simp only [hparts]
  have hcond : (decide (3 ≤ (X :: "outputs" :: splitAllStr "." Y).length)
      && ((X :: "outputs" :: splitAllStr "." Y).getD 1 "" == "outputs")) = true := by
    simp only [List.length_cons, List.getD_cons_succ, List.getD_cons_zero]
    simp only [Bool.and_eq_true, decide_eq_true_eq, beq_self_eq_true, and_true]
    omega
  simp only [hcond, if_true]
  simp only [List.getD_cons_zero, List.drop_succ_cons, List.drop_zero,
    pyJoin_splitAllStr_dot]
  cases dictGet ctx.job_outputs X <;> rfl

/-- The context of the C7 witness: job `build` failed partway but recorded
the dotted-key output `out.path`. -/
def needsCtx : Ctx :=
  { job_outputs := [("build",
      { outputs := [("out.path", "v1")], success := false,
        error := some "Command failed with exit code 1" })] }

/-- Witness for C7: reading the dotted output key of the failed job yields
the recorded value; reading from an unrecorded job yields the empty
string. -/
theorem needs_output_resolution_witness :
    evaluate_expression needsCtx [] ("needs." ++ "build" ++ ".outputs." ++ "out.path")
      = .str "v1"
    ∧ evaluate_expression needsCtx [] ("needs." ++ "deploy" ++ ".outputs." ++ "x")
      = .str "" := by
  constructor
  · rw [needs_output_resolution needsCtx [] "build" "out.path" (by decide) (by decide)
      (by decide)]
    rfl
  · rw [needs_output_resolution needsCtx [] "deploy" "x" (by decide) (by decide)
      (by decide)]
    rfl

/-! ## Claim C2: dependency failure skips a job and cascades -/

theorem runJobsLoop_append (rj : String → JobOutput × List (String × Nat × Part))
    (no : String → List String) (l₁ l₂ : List String)
    (outs : List (String × JobOutput)) :
    runJobsLoop rj no (l₁ ++ l₂) outs =
      ((runJobsLoop rj no l₂ (runJobsLoop rj no l₁ outs).1).1,
        (runJobsLoop rj no l₁ outs).2
          ++ (runJobsLoop rj no l₂ (runJobsLoop rj no l₁ outs).1).2) := by
  induction l₁ generalizing outs with
  | nil => simp [runJobsLoop]
  | cons j rest ih =>
    rw [List.cons_append, runJobsLoop, runJobsLoop]
    by_cases h : depsOk outs (no j) = true
    · simp only [if_pos h, ih]
      simp [List.append_assoc]
    · simp only [Bool.not_eq_true] at h
      simp only [h, Bool.false_eq_true, if_false, ih]

theorem runJobsLoop_get_not_mem (rj : String → JobOutput × List (String × Nat × Part))
    (no : String → List String) (l : List String) (outs : List (String × JobOutput))
    (k : String) (hk : k ∉ l) :
    dictGet (runJobsLoop rj no l outs).1 k = dictGet outs k := by
  induction l generalizing outs with
  | nil => rfl
  | cons j rest ih =>
    have hkj : j ≠ k := fun h => hk (h ▸ List.mem_cons_self j rest)
    have hkr : k ∉ rest := fun h => hk (List.mem_cons_of_mem j h)
    rw [runJobsLoop]
    by_cases h : depsOk outs (no j) = true
    · simp only [if_pos h]
      rw [ih _ hkr, dictGet_update_ne _ _ _ _ hkj]
    · simp only [Bool.not_eq_true] at h
      simp only [h, Bool.false_eq_true, if_false]
      rw [ih _ hkr, dictGet_update_ne _ _ _ _ hkj]

theorem runJobGo_trace_tag (aRes sRes : String → Nat → Except String (List (String × String)))
    (dryRun : Bool) (name : String) :
    ∀ steps i acc t, t ∈ (runJobGo aRes sRes dryRun name i steps acc).2 → t.1 = name := by
  intro steps
  induction steps with
  | nil => intro i acc t ht; cases ht
  | cons st rest ih =>
    intro i acc t ht
    rw [runJobGo] at ht
    revert ht
    split
    · simp only [List.mem_append]
      rintro (ht | ht)
      · obtain ⟨p, _, hpe⟩ := List.mem_map.mp ht
        rw [← hpe]
      · exact ih _ _ t ht
    · split
      · simp only [List.mem_append]
        rintro (ht | ht)
        · obtain ⟨p, _, hpe⟩ := List.mem_map.mp ht
          rw [← hpe]
        · exact ih _ _ t ht
      · intro ht
        obtain ⟨p, _, hpe⟩ := List.mem_map.mp ht
        rw [← hpe]

theorem runJobs_trace_tag (aRes sRes : String → Nat → Except String (List (String × String)))
    (dryRun : Bool) (needsOf : String → List String) (stepsOf : String → List Step) :
    ∀ l outs t,
      t ∈ (runJobsLoop (fun j => run_job aRes sRes dryRun j (stepsOf j)) needsOf l outs).2 →
      t.1 ∈ l := by
  intro l
  induction l with
  | nil => intro outs t ht; cases ht
  | cons j rest ih =>
    intro outs t ht
    rw [runJobsLoop] at ht
    revert ht
    by_cases h : depsOk outs (needsOf j) = true
    · simp only [if_pos h, List.mem_append]
      rintro (ht | ht)
      · exact (runJobGo_trace_tag aRes sRes dryRun j (stepsOf j) 0 {} t ht) ▸
          List.mem_cons_self j rest
      · exact List.mem_cons_of_mem j (ih _ t ht)
    · simp only [Bool.not_eq_true] at h
      simp only [h, Bool.false_eq_true, if_false]
      intro ht
      exact List.mem_cons_of_mem j (ih _ t ht)

/-- C2: in a live or dry run, when some dependency `d` of job `j` has a
recorded `JobOutput` whose success flag is false — whether `d` itself
failed or was skipped — job `j` is recorded as
`JobOutput(success=False, error="Dependency failed")` and none of its
steps ever executes (no part of the run's step trace is tagged with `j`).
Skipped jobs record a false success flag themselves, so the skip cascades
transitively along dependency chains of any length. -/
theorem dependency_failure_skips
    (aRes sRes : String → Nat → Except String (List (String × String)))
    (dryRun : Bool) (needsOf : String → List String) (stepsOf : String → List Step)
    (l₁ l₂ : List String) (j d : String) (o : JobOutput)
    (hnd : (l₁ ++ j :: l₂).Nodup)
    (hd : d ∈ needsOf j) (hdl : d ∈ l₁)
    (hrec : dictGet (runJobs aRes sRes dryRun needsOf stepsOf (l₁ ++ j :: l₂)).1 d
      = some o)
    (hfail : o.success = false) :
    dictGet (runJobs aRes sRes dryRun needsOf stepsOf (l₁ ++ j :: l₂)).1 j
      = some { outputs := [], success := false, error := some "Dependency failed" }
    ∧ ∀ i p, (j, i, p) ∉ (runJobs aRes sRes dryRun needsOf stepsOf (l₁ ++ j :: l₂)).2 := by
  obtain ⟨hnd1, hnd2, hdisj⟩ := List.nodup_append.mp hnd
  have hjl1 : j ∉ l₁ := fun h => hdisj h (List.mem_cons_self j l₂)
  have hjl2 : j ∉ l₂ := (List.nodup_cons.mp hnd2).1
  have hdj : d ∉ j :: l₂ := fun h => hdisj hdl h
  unfold runJobs
  rw [runJobsLoop_append]
  set F := fun jb => run_job aRes sRes dryRun jb (stepsOf jb) with hF
  set m₁ := runJobsLoop F needsOf l₁ [] with hm₁
  have hrecd : dictGet m₁.1 d = some o := by
    unfold runJobs at hrec
    rw [runJobsLoop_append] at hrec
    rw [runJobsLoop_get_not_mem F needsOf (j :: l₂) m₁.1 d hdj] at hrec
    exact hrec
  have hdeps : depsOk m₁.1 (needsOf j) = false := by
    unfold depsOk
    rw [List.all_eq_false]
    refine ⟨d, hd, ?_⟩
    rw [hrecd]
    simp [hfail]
  rw [runJobsLoop]
  simp only [hdeps, Bool.false_eq_true, if_false]
  constructor
  · rw [runJobsLoop_get_not_mem F needsOf l₂ _ j hjl2, dictGet_update_self]
  · intro i p hmem
    simp only [List.mem_append] at hmem
    rcases hmem with hmem | hmem
    · exact hjl1 (runJobs_trace_tag aRes sRes dryRun needsOf stepsOf l₁ [] (j, i, p) hmem)
    · exact hjl2 (runJobs_trace_tag aRes sRes dryRun needsOf stepsOf l₂ _ (j, i, p) hmem)

/-- Oracles and configuration of the C2 witness: a three-job chain
`a ← b ← c` in which job `a`'s only step is a shell command that exits
non-zero. -/
def chainNeeds : String → List String := fun j =>
  if j = "b" then ["a"] else if j = "c" then ["b"] else []

/-- Steps of the C2 witness chain: every job has one command step. -/
def chainSteps : String → List Step := fun _ => [{ run := some "bash main.sh" }]

/-- Shell oracle of the C2 witness chain: job `a`'s command fails. -/
def chainShell : String → Nat → Except String (List (String × String)) := fun j _ =>
  if j = "a" then .error "Command failed with exit code 1" else .ok []

/-- Action oracle of the C2 witness chain (never consulted). -/
def chainAction : String → Nat → Except String (List (String × String)) := fun _ _ =>
  .ok []

/-- Witness for C2, exercising the three-level cascade: with `a` failed and
`b` already recorded as skipped (checked by evaluation), job `c` is
recorded as skipped with the "Dependency failed" error and no step of `c`
ever executed. -/
theorem dependency_failure_skips_witness :
    dictGet (runJobs chainAction chainShell false chainNeeds chainSteps
        (["a", "b"] ++ "c" :: [])).1 "c"
      = some { outputs := [], success := false, error := some "Dependency failed" }
    ∧ ("c", 0, Part.shell) ∉
        (runJobs chainAction chainShell false chainNeeds chainSteps
          (["a", "b"] ++ "c" :: [])).2 := by
  have h := dependency_failure_skips chainAction chainShell false chainNeeds chainSteps
    ["a", "b"] [] "c" "b"
    { outputs := [], success := false, error := some "Dependency failed" }
    (by decide) (by decide) (by decide) rfl rfl
  exact ⟨h.1, h.2 0 Part.shell⟩

/-! ## Toolkit: scheduler state characterization -/

/-- The dependency-set state of the Kahn loop after the jobs in `result`
have been popped: each job's deduplicated needs minus everything already
scheduled. -/
def depsState (jobs : List (String × List String)) (result : List String) :
    List (String × List String) :=
  jobs.map (fun p => (p.1, p.2.dedup.filter (fun d => decide (d ∉ result))))

theorem key_unique {jobs : List (String × List String)}
    (hkeys : (jobs.map Prod.fst).Nodup)
    {x : String} {a b : List String} (ha : (x, a) ∈ jobs) (hb : (x, b) ∈ jobs) :
    a = b := by
  induction jobs with
  | nil => cases ha
  | cons p rest ih =>
    rw [List.map_cons, List.nodup_cons] at hkeys
    rcases List.mem_cons.mp ha with heq | ha2
    · rcases List.mem_cons.mp hb with heq2 | hb2
      · rw [← heq2] at heq
        exact congrArg Prod.snd heq
      · exfalso
        apply hkeys.1
        rw [← heq]
        exact List.mem_map.mpr ⟨(x, b), hb2, rfl⟩
    · rcases List.mem_cons.mp hb with heq2 | hb2
      · exfalso
        apply hkeys.1
        rw [← heq2]
        exact List.mem_map.mpr ⟨(x, a), ha2, rfl⟩
      · exact ih hkeys.2 ha2 hb2

theorem processRemoval_fst (res : List String) (job : String) :
    ∀ deps, (processRemoval res job deps).1
      = deps.map (fun p => (p.1, if job ∈ p.2 then p.2.erase job else p.2)) := by
  intro deps
  induction deps with
  | nil => rfl
  | cons p rest ih =>
    obtain ⟨other, ds⟩ := p
    simp only [processRemoval, List.map_cons]
    by_cases h : job ∈ ds
    · simp only [if_pos h]
      by_cases h2 : ds.erase job = [] ∧ other ∉ res
      · simp only [if_pos h2, ih]
      · simp only [if_neg h2, ih]
    · simp only [if_neg h, ih]

theorem processRemoval_snd (res : List String) (job : String) :
    ∀ deps, (processRemoval res job deps).2
      = (deps.filter
          (fun p => decide (job ∈ p.2 ∧ p.2.erase job = [] ∧ p.1 ∉ res))).map
          Prod.fst := by
  intro deps
  induction deps with
  | nil => rfl
  | cons p rest ih =>
    obtain ⟨other, ds⟩ := p
    simp only [processRemoval, List.filter_cons]
    by_cases h : job ∈ ds
    · simp only [if_pos h]
      by_cases h2 : ds.erase job = [] ∧ other ∉ res
      · have hc : decide (job ∈ ds ∧ ds.erase job = [] ∧ other ∉ res) = true := by
          simp [h, h2.1, h2.2]
        simp only [if_pos h2, hc, if_true, List.map_cons, ih]
      · have hc : decide (job ∈ ds ∧ ds.erase job = [] ∧ other ∉ res) = false := by
          by_contra hcon
          simp only [Bool.not_eq_false, decide_eq_true_eq] at hcon
          exact h2 ⟨hcon.2.1, hcon.2.2⟩
        simp only [if_neg h2, hc, Bool.false_eq_true, if_false, ih]
    · have hc : decide (job ∈ ds ∧ ds.erase job = [] ∧ other ∉ res) = false := by
        by_contra hcon
        simp only [Bool.not_eq_false, decide_eq_true_eq] at hcon
        exact h hcon.1
      simp only [if_neg h, hc, Bool.false_eq_true, if_false, ih]

theorem processRemoval_size (res : List String) (job : String) :
    ∀ deps, depsSize (processRemoval res job deps).1
      + (processRemoval res job deps).2.length ≤ depsSize deps := by
  intro deps
  induction deps with
  | nil => simp [processRemoval, depsSize]
  | cons p rest ih =>
    obtain ⟨other, ds⟩ := p
    simp only [processRemoval]
    by_cases h : job ∈ ds
    · have herase : (ds.erase job).length + 1 = ds.length :=
        List.length_erase_add_one h
      by_cases h2 : ds.erase job = [] ∧ other ∉ res
      · simp only [if_pos h, if_pos h2, depsSize, List.map_cons, List.sum_cons,
          List.length_cons]
        simp only [depsSize] at ih
        omega
      · simp only [if_pos h, if_neg h2, depsSize, List.map_cons, List.sum_cons]
        simp only [depsSize] at ih
        omega
    · simp only [if_neg h, depsSize, List.map_cons, List.sum_cons]
      simp only [depsSize] at ih
      omega

/-- Per-entry effect of one Kahn iteration on a dependency set. -/
theorem filter_step_entry (result : List String) (job : String) (ns : List String) :
    (if job ∈ ns.dedup.filter (fun d => decide (d ∉ result))
     then (ns.dedup.filter (fun d => decide (d ∉ result))).erase job
     else ns.dedup.filter (fun d => decide (d ∉ result)))
    = ns.dedup.filter (fun d => decide (d ∉ result ++ [job])) := by
  have hnd : (ns.dedup.filter (fun d => decide (d ∉ result))).Nodup :=
    (List.nodup_dedup ns).filter _
  by_cases h : job ∈ ns.dedup.filter (fun d => decide (d ∉ result))
  · rw [if_pos h, hnd.erase_eq_filter, List.filter_filter]
    apply List.filter_congr
    intro d _
    by_cases h1 : d ∈ result <;> by_cases h2 : d = job <;>
      simp [h1, h2, List.mem_append]
  · rw [if_neg h]
    apply List.filter_congr
    intro d hd
    by_cases h2 : d = job
    · subst h2
      have hdr : d ∈ result := by
        by_contra hc
        exact h (List.mem_filter.mpr ⟨hd, by simp [hc]⟩)
      simp [hdr, List.mem_append]
    · by_cases h1 : d ∈ result <;> simp [h1, h2, List.mem_append]

theorem depsState_step (jobs : List (String × List String)) (result : List String)
    (job : String) :
    (processRemoval (result ++ [job]) job (depsState jobs result)).1
      = depsState jobs (result ++ [job]) := by
  rw [processRemoval_fst]
  unfold depsState
  rw [List.map_map]
  apply List.map_congr_left
  intro p _
  simp only [Function.comp]
  exact congrArg (Prod.mk p.1) (filter_step_entry result job p.2)

theorem depsState_fst (jobs : List (String × List String)) (result : List String) :
    (depsState jobs result).map Prod.fst = jobs.map Prod.fst := by
  unfold depsState
  rw [List.map_map]
  rfl

theorem ready_mem_iff (jobs : List (String × List String)) (res2 : List String)
    (job x : String) :
    (x ∈ (processRemoval res2 job (depsState jobs result)).2) ↔
      ∃ ns, (x, ns) ∈ jobs ∧
        job ∈ ns.dedup.filter (fun d => decide (d ∉ result)) ∧
        (ns.dedup.filter (fun d => decide (d ∉ result))).erase job = [] ∧
        x ∉ res2 := by
  rw [processRemoval_snd]
  constructor
  · intro hx
    obtain ⟨p, hp, hpx⟩ := List.mem_map.mp hx
    subst hpx
    obtain ⟨hpd, hcond⟩ := List.mem_filter.mp hp
    obtain ⟨q, hq, hqp⟩ := List.mem_map.mp hpd
    subst hqp
    simp only [decide_eq_true_eq] at hcond
    exact ⟨q.2, by simpa using hq, hcond.1, hcond.2.1, hcond.2.2⟩
  · rintro ⟨ns, hmem, h1, h2, h3⟩
    refine List.mem_map.mpr
      ⟨(x, ns.dedup.filter (fun d => decide (d ∉ result))),
        List.mem_filter.mpr
          ⟨List.mem_map.mpr ⟨(x, ns), hmem, rfl⟩, by
            simp only [decide_eq_true_eq]
            exact ⟨h1, h2, h3⟩⟩, rfl⟩

theorem ready_nodup (jobs : List (String × List String))
    (hkeys : (jobs.map Prod.fst).Nodup) (res2 result : List String) (job : String) :
    (processRemoval res2 job (depsState jobs result)).2.Nodup := by
  rw [processRemoval_snd]
  have h1 : ((depsState jobs result).filter
      (fun p => decide (job ∈ p.2 ∧ p.2.erase job = [] ∧ p.1 ∉ res2))).Sublist
      (depsState jobs result) := List.filter_sublist _
  have h2 := h1.map Prod.fst
  rw [depsState_fst] at h2
  exact hkeys.sublist h2

theorem append_singleton_eq {α : Type} {pre post l : List α} {x a : α}
    (h : pre ++ x :: post = l ++ [a]) :
    (pre = l ∧ x = a ∧ post = []) ∨
      ∃ post2, post = post2 ++ [a] ∧ l = pre ++ x :: post2 := by
  rcases List.eq_nil_or_concat post with rfl | ⟨post2, b, rfl⟩
  · left
    have h2 : pre ++ [x] = l ++ [a] := h
    obtain ⟨hpre, hx⟩ := List.append_inj' h2 rfl
    exact ⟨hpre, List.head_eq_of_cons_eq hx, rfl⟩
  · right
    rw [List.concat_eq_append] at h
    have h2 : (pre ++ x :: post2) ++ [b] = l ++ [a] := by
      rw [← h]
      simp
    obtain ⟨hpre, hb⟩ := List.append_inj' h2 rfl
    have hba : b = a := List.head_eq_of_cons_eq hb
    subst hba
    exact ⟨post2, List.concat_eq_append post2 b, hpre.symm⟩

/-- The loop invariant of `get_job_order`'s Kahn iteration. -/
structure KahnInv (jobs : List (String × List String))
    (result queue : List String) (deps : List (String × List String)) : Prop where
  hdeps : deps = depsState jobs result
  hres : result.Nodup
  hq : queue.Nodup
  hsub : ∀ x ∈ result, x ∈ jobs.map Prod.fst
  hq_iff : ∀ x, x ∈ queue ↔ ∃ ns, (x, ns) ∈ jobs ∧ x ∉ result
      ∧ ns.dedup.filter (fun d => decide (d ∉ result)) = []
  hprec : ∀ pre x post, result = pre ++ x :: post →
      ∀ ns, (x, ns) ∈ jobs → ∀ d ∈ ns, d ∈ pre

theorem kahn_step {jobs : List (String × List String)}
    (hkeys : (jobs.map Prod.fst).Nodup)
    {result queue : List String} {deps : List (String × List String)} {job : String}
    (inv : KahnInv jobs result (job :: queue) deps) :
    KahnInv jobs (result ++ [job])
      (queue ++ (processRemoval (result ++ [job]) job deps).2)
      (processRemoval (result ++ [job]) job deps).1 := by
  obtain ⟨hdeps, hres, hq, hsub, hq_iff, hprec⟩ := inv
  subst hdeps
  obtain ⟨nsj, hnsj, hjr, hjf⟩ := (hq_iff job).mp (List.mem_cons_self job queue)
  have hjq : job ∉ queue := (List.nodup_cons.mp hq).1
  have hqtail : queue.Nodup := (List.nodup_cons.mp hq).2
  have hjnames : job ∈ jobs.map Prod.fst := List.mem_map.mpr ⟨(job, nsj), hnsj, rfl⟩
  refine ⟨depsState_step jobs result job, ?_, ?_, ?_, ?_, ?_⟩
  · rw [List.nodup_append]
    refine ⟨hres, List.nodup_singleton job, ?_⟩
    intro a ha hb
    rw [List.mem_singleton] at hb
    subst hb
    exact hjr ha
  · rw [List.nodup_append]
    refine ⟨hqtail, ready_nodup jobs hkeys _ result job, ?_⟩
    intro a ha hb
    obtain ⟨ns, hmem, h1, _, _⟩ := (ready_mem_iff jobs _ job a).mp hb
    obtain ⟨ns2, hmem2, _, hf2⟩ := (hq_iff a).mp (List.mem_cons_of_mem job ha)
    rw [key_unique hkeys hmem hmem2, hf2] at h1
    cases h1
  · intro x hx
    rw [List.mem_append] at hx
    rcases hx with hx | hx
    · exact hsub x hx
    · rw [List.mem_singleton] at hx
      subst hx
      exact hjnames
  · intro x
    rw [List.mem_append]
    constructor
    · rintro (hx | hx)
      · obtain ⟨ns, hmem, hnr, hf⟩ := (hq_iff x).mp (List.mem_cons_of_mem job hx)
        have hxj : x ≠ job := fun h => hjq (h ▸ hx)
        refine ⟨ns, hmem, ?_, ?_⟩
        · intro hc
          rw [List.mem_append, List.mem_singleton] at hc
          rcases hc with hc | hc
          · exact hnr hc
          · exact hxj hc
        · rw [List.filter_eq_nil_iff] at hf ⊢
          intro d hd hc
          simp only [decide_eq_true_eq, List.mem_append, List.mem_singleton, not_or] at hc
          exact hf d hd (by simp [hc.1])
      · obtain ⟨ns, hmem, h1, h2, h3⟩ := (ready_mem_iff jobs _ job x).mp hx
        refine ⟨ns, hmem, fun hc => h3 hc, ?_⟩
        have := filter_step_entry result job ns
        rw [if_pos h1] at this
        rw [← this, h2]
    · rintro ⟨ns, hmem, hnr2, hf2⟩
      have hxj : x ≠ job := by
        intro h
        subst h
        exact hnr2 (List.mem_append.mpr (Or.inr (List.mem_singleton.mpr rfl)))
      have hnr : x ∉ result := fun h => hnr2 (List.mem_append.mpr (Or.inl h))
      by_cases hold : ns.dedup.filter (fun d => decide (d ∉ result)) = []
      · left
        have hx := (hq_iff x).mpr ⟨ns, hmem, hnr, hold⟩
        rcases List.mem_cons.mp hx with h | h
        · exact absurd h hxj
        · exact h
      · right
        have hstep := filter_step_entry result job ns
        by_cases hjm : job ∈ ns.dedup.filter (fun d => decide (d ∉ result))
        · rw [if_pos hjm] at hstep
          exact (ready_mem_iff jobs _ job x).mpr
            ⟨ns, hmem, hjm, by rw [hstep]; exact hf2, hnr2⟩
        · rw [if_neg hjm] at hstep
          exact absurd (hstep.trans hf2) hold
  · intro pre x post hdec ns hmem d hd
    rcases append_singleton_eq hdec.symm with ⟨hpre, hx, _⟩ | ⟨post2, _, hres2⟩
    · subst hpre
      subst hx
      have hns : ns = nsj := key_unique hkeys hmem hnsj
      subst hns
      have := List.filter_eq_nil_iff.mp hjf d (List.mem_dedup.mpr hd)
      simpa using this
    · exact hprec pre x post2 hres2 ns hmem d hd

/-- What holds of the Kahn loop's final result list: it is duplicate-free,
contains only job names, every job's needs precede it, and any job left
out has a needs entry that is also left out. -/
structure KahnOut (jobs : List (String × List String)) (final : List String) : Prop where
  nodup : final.Nodup
  sub : ∀ x ∈ final, x ∈ jobs.map Prod.fst
  prec : ∀ pre x post, final = pre ++ x :: post →
      ∀ ns, (x, ns) ∈ jobs → ∀ d ∈ ns, d ∈ pre
  stuck : ∀ x ns, (x, ns) ∈ jobs → x ∉ final → ∃ d ∈ ns, d ∉ final

theorem kahnFuel_out {jobs : List (String × List String)}
    (hkeys : (jobs.map Prod.fst).Nodup) :
    ∀ fuel queue result deps, KahnInv jobs result queue deps →
      queue.length + depsSize deps < fuel →
      KahnOut jobs (kahnFuel fuel queue result deps) := by
  intro fuel
  induction fuel with
  | zero => intro q r d _ hm; exact absurd hm (Nat.not_lt_zero _)
  | succ f ih =>
    intro queue result deps inv hm
    cases queue with
    | nil =>
      simp only [kahnFuel]
      refine ⟨inv.hres, inv.hsub, inv.hprec, ?_⟩
      intro x ns hmem hnx
      by_contra hc
      push_neg at hc
      have hf : ns.dedup.filter (fun d => decide (d ∉ result)) = [] := by
        rw [List.filter_eq_nil_iff]
        intro d hd
        simp only [decide_eq_true_eq, Decidable.not_not]
        exact hc d (List.mem_dedup.mp hd)
      exact absurd ((inv.hq_iff x).mpr ⟨ns, hmem, hnx, hf⟩) (List.not_mem_nil x)
    | cons job queue2 =>
      have inv2 := kahn_step hkeys inv
      have hsz := processRemoval_size (result ++ [job]) job deps
      simp only [kahnFuel]
      apply ih _ _ _ inv2
      rw [List.length_append]
      simp only [List.length_cons] at hm
      omega

theorem kahn_init (jobs : List (String × List String))
    (hkeys : (jobs.map Prod.fst).Nodup) :
    KahnInv jobs []
      (((jobs.map (fun p => (p.1, p.2.dedup))).filter
        (fun p => p.2.isEmpty)).map (fun p => p.1))
      (jobs.map (fun p => (p.1, p.2.dedup))) := by
  have hdeps0 : jobs.map (fun p => (p.1, p.2.dedup)) = depsState jobs [] := by
    unfold depsState
    apply List.map_congr_left
    intro p _
    refine congrArg (Prod.mk p.1) ?_
    rw [List.filter_eq_self.mpr]
    intro a _
    simp
  refine ⟨hdeps0, List.nodup_nil, ?_, ?_, ?_, ?_⟩
  · have h1 : ((jobs.map (fun p => (p.1, p.2.dedup))).filter
        (fun p => p.2.isEmpty)).Sublist (jobs.map (fun p => (p.1, p.2.dedup))) :=
      List.filter_sublist _
    have h2 := h1.map (fun p : String × List String => p.1)
    have h3 : (jobs.map (fun p => (p.1, p.2.dedup))).map
        (fun p : String × List String => p.1) = jobs.map Prod.fst := by
      rw [List.map_map]
      rfl
    rw [h3] at h2
    exact hkeys.sublist h2
  · intro x hx
    cases hx
  · intro x
    constructor
    · intro hx
      obtain ⟨p, hp, hpx⟩ := List.mem_map.mp hx
      subst hpx
      obtain ⟨hpd, hemp⟩ := List.mem_filter.mp hp
      obtain ⟨q, hq, hqp⟩ := List.mem_map.mp hpd
      subst hqp
      rw [List.isEmpty_iff] at hemp
      refine ⟨q.2, by simpa using hq, List.not_mem_nil _, ?_⟩
      rw [show q.2.dedup = [] from hemp]
      rfl
    · rintro ⟨ns, hmem, _, hf⟩
      have hded : ns.dedup = [] := by
        rw [List.filter_eq_self.mpr (fun a _ => by simp)] at hf
        exact hf
      refine List.mem_map.mpr ⟨(x, ns.dedup), ?_, rfl⟩
      refine List.mem_filter.mpr ⟨List.mem_map.mpr ⟨(x, ns), hmem, rfl⟩, ?_⟩
      rw [hded]
      rfl
  · intro pre x post h
    exact absurd h.symm (by simp)

theorem get_job_order_out (jobs : List (String × List String))
    (hkeys : (jobs.map Prod.fst).Nodup) :
    KahnOut jobs
      (kahnFuel
        ((((jobs.map (fun p => (p.1, p.2.dedup))).filter
          (fun p => p.2.isEmpty)).map (fun p => p.1)).length
          + depsSize (jobs.map (fun p => (p.1, p.2.dedup))) + 1)
        (((jobs.map (fun p => (p.1, p.2.dedup))).filter
          (fun p => p.2.isEmpty)).map (fun p => p.1))
        []
        (jobs.map (fun p => (p.1, p.2.dedup)))) :=
  kahnFuel_out hkeys _ _ _ _ (kahn_init jobs hkeys) (Nat.lt_succ_self _)

/-- The Kahn loop result of `get_job_order` (the value of `result` at the
`while` loop's exit). -/
def kahnResult (jobs : List (String × List String)) : List String :=
  let dependencies := jobs.map (fun p => (p.1, p.2.dedup))
  let noDeps := (dependencies.filter (fun p => p.2.isEmpty)).map (fun p => p.1)
  kahnFuel (noDeps.length + depsSize dependencies + 1) noDeps [] dependencies

theorem get_job_order_eq (jobs : List (String × List String)) :
    get_job_order jobs =
      if (kahnResult jobs).length = jobs.length then .ok (kahnResult jobs)
      else .error ((jobs.map (fun p => p.1)).filter
        (fun j => j ∉ kahnResult jobs)) := rfl

theorem kahnResult_out (jobs : List (String × List String))
    (hkeys : (jobs.map Prod.fst).Nodup) : KahnOut jobs (kahnResult jobs) :=
  kahnFuel_out hkeys _ _ _ _ (kahn_init jobs hkeys) (Nat.lt_succ_self _)

/-- Pigeonhole: a finite set in which every element has an `r`-successor
inside the set contains a cycle. -/
theorem cycle_of_progress {r : String → String → Prop} (S : List String)
    (hne : S ≠ []) (hstep : ∀ j ∈ S, ∃ d ∈ S, r j d) :
    ∃ x, Relation.TransGen r x x := by
  classical
  obtain ⟨s0, hs0⟩ := List.exists_mem_of_ne_nil S hne
  set f : String → String := fun j => if h : j ∈ S then (hstep j h).choose else j
    with hfdef
  have hf : ∀ j ∈ S, f j ∈ S ∧ r j (f j) := by
    intro j hj
    rw [hfdef]
    simp only [dif_pos hj]
    obtain ⟨hd1, hd2⟩ := (hstep j hj).choose_spec
    exact ⟨hd1, hd2⟩
  have hiter : ∀ k, f^[k] s0 ∈ S := by
    intro k
    induction k with
    | zero => simpa using hs0
    | succ k ih =>
      rw [Function.iterate_succ_apply']
      exact (hf _ ih).1
  have htg : ∀ i m, 1 ≤ m → Relation.TransGen r (f^[i] s0) (f^[m + i] s0) := by
    intro i m
    induction m with
    | zero => omega
    | succ m ih =>
      intro _
      rcases Nat.eq_zero_or_pos m with rfl | hm
      · have h1 : f^[1 + i] s0 = f (f^[i] s0) := by
          rw [Function.iterate_add_apply]
          rfl
        rw [h1]
        exact Relation.TransGen.single (hf _ (hiter i)).2
      · have h1 : f^[m + 1 + i] s0 = f (f^[m + i] s0) := by
          rw [show m + 1 + i = 1 + (m + i) from by omega,
            Function.iterate_add_apply]
          rfl
        rw [h1]
        exact Relation.TransGen.tail (ih hm) (hf _ (hiter (m + i))).2
  have hmaps : ∀ k ∈ Finset.range (S.toFinset.card + 1), f^[k] s0 ∈ S.toFinset :=
    fun k _ => List.mem_toFinset.mpr (hiter k)
  have hcard : S.toFinset.card < (Finset.range (S.toFinset.card + 1)).card := by
    rw [Finset.card_range]
    omega
  obtain ⟨i, _, j, _, hij, heq⟩ :=
    Finset.exists_ne_map_eq_of_card_lt_of_maps_to hcard hmaps
  rcases Nat.lt_or_ge i j with hlt | hge
  · have h1 := htg i (j - i) (by omega)
    rw [show j - i + i = j from by omega] at h1
    rw [← heq] at h1
    exact ⟨_, h1⟩
  · have hji : j < i := by omega
    have h1 := htg j (i - j) (by omega)
    rw [show i - j + j = i from by omega] at h1
    rw [heq] at h1
    exact ⟨_, h1⟩

theorem kahnResult_complete (jobs : List (String × List String))
    (hkeys : (jobs.map Prod.fst).Nodup)
    (hex : ∀ p ∈ jobs, ∀ d ∈ p.2, d ∈ jobs.map Prod.fst)
    (hacyc : ¬ HasCycle jobs) :
    ∀ x ∈ jobs.map Prod.fst, x ∈ kahnResult jobs := by
  by_contra hc
  push_neg at hc
  obtain ⟨j0, hj0n, hj0r⟩ := hc
  have hS0 : j0 ∈ (jobs.map Prod.fst).filter (fun j => decide (j ∉ kahnResult jobs)) :=
    List.mem_filter.mpr ⟨hj0n, by simp [hj0r]⟩
  apply hacyc
  apply cycle_of_progress
    ((jobs.map Prod.fst).filter (fun j => decide (j ∉ kahnResult jobs)))
    (List.ne_nil_of_mem hS0)
  intro j hj
  obtain ⟨hjn, hjr⟩ := List.mem_filter.mp hj
  simp only [decide_eq_true_eq] at hjr
  obtain ⟨p, hp, hpj⟩ := List.mem_map.mp hjn
  subst hpj
  obtain ⟨d, hd, hdr⟩ := (kahnResult_out jobs hkeys).stuck p.1 p.2 hp hjr
  have hdn : d ∈ jobs.map Prod.fst := hex p hp d hd
  exact ⟨d, List.mem_filter.mpr ⟨hdn, by simp [hdr]⟩, ⟨p.2, hp, hd, hdn⟩⟩

theorem kahnFuel_trivial :
    ∀ fuel queue result (deps : List (String × List String)),
      (∀ p ∈ deps, p.2 = []) → queue.length < fuel →
      kahnFuel fuel queue result deps = result ++ queue := by
  intro fuel
  induction fuel with
  | zero => intro q r d _ hm; exact absurd hm (Nat.not_lt_zero _)
  | succ f ih =>
    intro queue result deps hdeps hm
    cases queue with
    | nil => simp [kahnFuel]
    | cons job queue2 =>
      have hfst : (processRemoval (result ++ [job]) job deps).1 = deps := by
        rw [processRemoval_fst]
        have : ∀ p ∈ deps, (p.1, if job ∈ p.2 then p.2.erase job else p.2) = p := by
          intro p hp
          obtain ⟨p1, p2⟩ := p
          have h2 : p2 = [] := hdeps (p1, p2) hp
          subst h2
          simp
        rw [List.map_congr_left this]
        simp
      have hsnd : (processRemoval (result ++ [job]) job deps).2 = [] := by
        rw [processRemoval_snd]
        have : deps.filter
            (fun p => decide (job ∈ p.2 ∧ p.2.erase job = [] ∧
              p.1 ∉ result ++ [job])) = [] := by
          rw [List.filter_eq_nil_iff]
          intro p hp
          simp only [decide_eq_true_eq, not_and]
          intro hmem
          rw [hdeps p hp] at hmem
          cases hmem
        rw [this]
        rfl
      simp only [kahnFuel, hfst, hsnd, List.append_nil]
      rw [ih queue2 (result ++ [job]) deps hdeps (by
        simp only [List.length_cons] at hm
        omega)]
      simp

/-! ## Claim C1: the scheduler's order is a linear extension -/

/-- C1: for a workflow whose `needs` all name existing jobs and whose
restricted dependency relation is acyclic, `get_job_order` succeeds with a
sequence containing every job name exactly once in which every name in a
job's needs appears strictly earlier than the job; and when every job is a
root (all needs empty, the pure tie case) the order is exactly the
document insertion order, which together with the function being
deterministic gives reproducible scheduling for an identical document. -/
theorem get_job_order_topological (jobs : List (String × List String))
    (hkeys : (jobs.map Prod.fst).Nodup)
    (hex : ∀ p ∈ jobs, ∀ d ∈ p.2, d ∈ jobs.map Prod.fst)
    (hacyc : ¬ HasCycle jobs) :
    ∃ order, get_job_order jobs = .ok order
      ∧ (∀ j ∈ jobs.map Prod.fst, order.count j = 1)
      ∧ (∀ j ∈ order, j ∈ jobs.map Prod.fst)
      ∧ (∀ p ∈ jobs, ∀ d ∈ p.2, order.indexOf d < order.indexOf p.1)
      ∧ ((∀ p ∈ jobs, p.2 = []) → order = jobs.map Prod.fst) := by
  have out := kahnResult_out jobs hkeys
  have hcompl := kahnResult_complete jobs hkeys hex hacyc
  have hperm : List.Perm (kahnResult jobs) (jobs.map Prod.fst) :=
    (List.subperm_of_subset out.nodup out.sub).antisymm
      (List.subperm_of_subset hkeys hcompl)
  have hlen : (kahnResult jobs).length = jobs.length := by
    rw [hperm.length_eq, List.length_map]
  refine ⟨kahnResult jobs, ?_, ?_, out.sub, ?_, ?_⟩
  · rw [get_job_order_eq, if_pos hlen]
  · intro j hj
    exact List.count_eq_one_of_mem out.nodup (hcompl j hj)
  · intro p hp d hd
    have hpmem : p.1 ∈ kahnResult jobs :=
      hcompl p.1 (List.mem_map.mpr ⟨p, hp, rfl⟩)
    obtain ⟨s, t, hdec⟩ := List.append_of_mem hpmem
    have hdpre : d ∈ s := out.prec s p.1 t hdec p.2 hp d hd
    have hns : p.1 ∉ s := by
      have := hdec ▸ out.nodup
      rw [List.nodup_append] at this
      exact fun hmem => this.2.2 hmem (List.mem_cons_self p.1 t)
    rw [hdec, List.indexOf_append_of_mem hdpre,
      List.indexOf_append_of_not_mem hns, List.indexOf_cons_self]
    have := List.indexOf_lt_length.mpr hdpre
    omega
  · intro hroots
    have hded : ∀ p ∈ jobs.map (fun p => (p.1, p.2.dedup)), p.2 = [] := by
      intro p hp
      obtain ⟨q, hq, hqp⟩ := List.mem_map.mp hp
      rw [← hqp]
      simp only
      rw [hroots q hq]
      rfl
    have hnod : ((jobs.map (fun p => (p.1, p.2.dedup))).filter
        (fun p => p.2.isEmpty)).map (fun p => p.1) = jobs.map Prod.fst := by
      rw [List.filter_eq_self.mpr (fun p hp => by rw [hded p hp]; rfl),
        List.map_map]
      rfl
    have hkr : kahnResult jobs =
        kahnFuel ((((jobs.map (fun p => (p.1, p.2.dedup))).filter
            (fun p => p.2.isEmpty)).map (fun p => p.1)).length
          + depsSize (jobs.map (fun p => (p.1, p.2.dedup))) + 1)
          (((jobs.map (fun p => (p.1, p.2.dedup))).filter
            (fun p => p.2.isEmpty)).map (fun p => p.1))
          [] (jobs.map (fun p => (p.1, p.2.dedup))) := rfl
    rw [hkr, hnod, kahnFuel_trivial _ _ _ _ hded
      (Nat.lt_succ_of_le (Nat.le_add_right _ _))]
    rfl

/-- A relation whose only edge is `u → v` with `u ≠ v` has no cycle. -/
theorem no_cycle_single_edge {r : String → String → Prop} {u v : String}
    (h : ∀ a b, r a b → a = u ∧ b = v) (huv : u ≠ v) :
    ¬ ∃ x, Relation.TransGen r x x := by
  rintro ⟨x, hx⟩
  obtain ⟨b, hxb, hbx⟩ := Relation.TransGen.head'_iff.mp hx
  obtain ⟨hxu, hbv⟩ := h x b hxb
  rcases Relation.ReflTransGen.cases_head hbx with heq | ⟨c, hvc, _⟩
  · apply huv
    rw [← hxu, ← heq]
    exact hbv
  · have h1 := (h b c hvc).1
    rw [hbv] at h1
    exact huv h1.symm

/-- Witness for C1 on the two-job workflow `a`, `b needs a`: the scheduler
returns `[a, b]` and `a` is placed before `b`. -/
theorem get_job_order_topological_witness :
    get_job_order [("a", []), ("b", ["a"])] = .ok ["a", "b"]
    ∧ (["a", "b"].indexOf "a" < ["a", "b"].indexOf "b") := by
  have hacyc : ¬ HasCycle [("a", []), ("b", ["a"])] := by
    apply @no_cycle_single_edge _ "b" "a" _ (by decide)
    rintro a b ⟨ns, hmem, hd, _⟩
    rcases List.mem_cons.mp hmem with heq | hmem2
    · exfalso
      have : b ∈ ([] : List String) := by
        have h2 : ns = [] := congrArg Prod.snd heq
        rw [← h2]
        exact hd
      cases this
    · rcases List.mem_cons.mp hmem2 with heq | hmem3
      · have ha : a = "b" := congrArg Prod.fst heq
        have hns : ns = ["a"] := congrArg Prod.snd heq
        subst hns
        rw [List.mem_singleton] at hd
        exact ⟨ha, hd⟩
      · cases hmem3
  obtain ⟨order, hok, _, _, hprec, _⟩ :=
    get_job_order_topological [("a", []), ("b", ["a"])] (by decide) (by decide) hacyc
  have hord : order = ["a", "b"] := by
    have h2 : (Except.ok order : Except (List String) (List String))
        = .ok ["a", "b"] := by
      rw [← hok]
      rfl
    exact Except.ok.inj h2
  subst hord
  exact ⟨hok, hprec ("b", ["a"]) (by decide) "a" (by decide)⟩

/-! ## Claim C3: when and what the circular-dependency error reports -/

theorem mem_take_get? {l : List String} {n : Nat} {d : String}
    (h : d ∈ l.take n) : ∃ m, m < n ∧ l.get? m = some d := by
  obtain ⟨m, hm⟩ := List.get?_of_mem h
  have hmlt : m < (l.take n).length := by
    rcases List.get?_eq_some.mp hm with ⟨hlt, _⟩
    exact hlt
  have hmn : m < n := by
    have := List.length_take n l
    rw [this] at hmlt
    omega
  refine ⟨m, hmn, ?_⟩
  rw [← List.get?_take hmn]
  exact hm

theorem kahnResult_sound (jobs : List (String × List String))
    (hkeys : (jobs.map Prod.fst).Nodup) :
    ∀ x ∈ kahnResult jobs, Completable jobs x := by
  have out := kahnResult_out jobs hkeys
  suffices h : ∀ n x, (kahnResult jobs).get? n = some x → Completable jobs x by
    intro x hx
    obtain ⟨n, hn⟩ := List.get?_of_mem hx
    exact h n x hn
  intro n
  induction n using Nat.strong_induction_on with
  | _ n ih =>
    intro x hn
    obtain ⟨hlt, hget⟩ := List.get?_eq_some.mp hn
    have hdec : kahnResult jobs =
        (kahnResult jobs).take n ++ x :: (kahnResult jobs).drop (n + 1) := by
      conv_lhs => rw [← List.take_append_drop n (kahnResult jobs)]
      rw [List.drop_eq_getElem_cons hlt]
      rw [show (kahnResult jobs)[n] = x from hget]
    have hxmem : x ∈ kahnResult jobs := by
      rw [← hget]
      exact List.get_mem _ _ hlt
    have hxn : x ∈ jobs.map Prod.fst := out.sub x hxmem
    obtain ⟨p, hp, hpx⟩ := List.mem_map.mp hxn
    have hpmem : (x, p.2) ∈ jobs := by
      rw [← hpx]
      exact hp
    refine Completable.intro x p.2 hpmem ?_
    intro d hd
    have hdpre : d ∈ (kahnResult jobs).take n :=
      out.prec _ x _ hdec p.2 hpmem d hd
    obtain ⟨m, hmn, hdm⟩ := mem_take_get? hdpre
    exact ih m hmn d hdm

theorem kahnResult_of_completable (jobs : List (String × List String))
    (hkeys : (jobs.map Prod.fst).Nodup) :
    ∀ x, Completable jobs x → x ∈ kahnResult jobs := by
  intro x hx
  induction hx with
  | intro j ns hj hdeps ih =>
    by_contra hc
    obtain ⟨d, hd, hdr⟩ := (kahnResult_out jobs hkeys).stuck j ns hj hc
    exact hdr (ih d hd)

theorem kahnResult_len_iff (jobs : List (String × List String))
    (hkeys : (jobs.map Prod.fst).Nodup) :
    (kahnResult jobs).length = jobs.length ↔
      ∀ j ∈ jobs.map Prod.fst, j ∈ kahnResult jobs := by
  have out := kahnResult_out jobs hkeys
  constructor
  · intro hlen j hj
    have hsub : List.Subperm (kahnResult jobs) (jobs.map Prod.fst) :=
      List.subperm_of_subset out.nodup out.sub
    have hperm := hsub.perm_of_length_le (by rw [List.length_map]; omega)
    exact hperm.mem_iff.mpr hj
  · intro hall
    have hperm : List.Perm (kahnResult jobs) (jobs.map Prod.fst) :=
      (List.subperm_of_subset out.nodup out.sub).antisymm
        (List.subperm_of_subset hkeys hall)
    rw [hperm.length_eq, List.length_map]

/-- C3 counterexample: the workflow with the single job `a` whose `needs`
names the nonexistent job `ghost` raises the circular-dependency error
(reporting `a`) even though the dependency relation restricted to existing
job names is empty, hence acyclic. -/
theorem circular_error_without_cycle :
    get_job_order [("a", ["ghost"])] = .error ["a"]
    ∧ ¬ HasCycle [("a", ["ghost"])] := by
  constructor
  · rfl
  · rintro ⟨x, hx⟩
    obtain ⟨b, hxb, _⟩ := Relation.TransGen.head'_iff.mp hx
    obtain ⟨ns, hmem, hd, hdn⟩ := hxb
    rcases List.mem_cons.mp hmem with heq | h2
    · have hns : ns = ["ghost"] := congrArg Prod.snd heq
      subst hns
      rw [List.mem_singleton] at hd
      subst hd
      exact absurd hdn (by decide)
    · cases h2

/-- C3 amended: `get_job_order` raises the circular-dependency error if and
only if some job is not completable — that is, it lies on or transitively
depends on a dependency cycle, or transitively depends on a job name that
does not exist in the workflow — and the names it reports are exactly the
non-completable jobs (so a cycle's downstream dependents are reported
together with the cycle's members, wherever the cycle lies). -/
theorem get_job_order_error_iff (jobs : List (String × List String))
    (hkeys : (jobs.map Prod.fst).Nodup) :
    ((∃ rem, get_job_order jobs = .error rem) ↔
      ∃ j ∈ jobs.map Prod.fst, ¬ Completable jobs j)
    ∧ (∀ rem, get_job_order jobs = .error rem →
      ∀ x, (x ∈ rem ↔ x ∈ jobs.map Prod.fst ∧ ¬ Completable jobs x)) := by
  constructor
  · constructor
    · rintro ⟨rem, hrem⟩
      rw [get_job_order_eq] at hrem
      by_cases hlen : (kahnResult jobs).length = jobs.length
      · rw [if_pos hlen] at hrem
        cases hrem
      · have hnall : ¬ ∀ j ∈ jobs.map Prod.fst, j ∈ kahnResult jobs :=
          fun hall => hlen ((kahnResult_len_iff jobs hkeys).mpr hall)
        push_neg at hnall
        obtain ⟨j, hjn, hjr⟩ := hnall
        exact ⟨j, hjn,
          fun hcompl => hjr (kahnResult_of_completable jobs hkeys j hcompl)⟩
    · rintro ⟨j, hjn, hjc⟩
      have hjr : j ∉ kahnResult jobs :=
        fun hmem => hjc (kahnResult_sound jobs hkeys j hmem)
      have hlen : ¬ (kahnResult jobs).length = jobs.length :=
        fun h => hjr ((kahnResult_len_iff jobs hkeys).mp h j hjn)
      rw [get_job_order_eq, if_neg hlen]
      exact ⟨_, rfl⟩
  · intro rem hrem x
    rw [get_job_order_eq] at hrem
    by_cases hlen : (kahnResult jobs).length = jobs.length
    · rw [if_pos hlen] at hrem
      cases hrem
    · rw [if_neg hlen] at hrem
      have hrem2 : rem = (jobs.map (fun p => p.1)).filter
          (fun j => decide (j ∉ kahnResult jobs)) := (Except.error.inj hrem).symm
      subst hrem2
      constructor
      · intro hx
        obtain ⟨hxn, hxr⟩ := List.mem_filter.mp hx
        simp only [decide_eq_true_eq] at hxr
        exact ⟨hxn,
          fun hc => hxr (kahnResult_of_completable jobs hkeys x hc)⟩
      · rintro ⟨hxn, hxc⟩
        refine List.mem_filter.mpr ⟨hxn, ?_⟩
        simp only [decide_eq_true_eq]
        exact fun hmem => hxc (kahnResult_sound jobs hkeys x hmem)

/-- Witness for C3's amended claim on the workflow `a ↔ b` cycle plus the
downstream job `c needs a`: the error reports all three jobs, and `c` —
not itself on the cycle — is indeed non-completable. -/
theorem get_job_order_error_iff_witness :
    get_job_order [("a", ["b"]), ("b", ["a"]), ("c", ["a"])] = .error ["a", "b", "c"]
    ∧ ¬ Completable [("a", ["b"]), ("b", ["a"]), ("c", ["a"])] "c" := by
  have h := (get_job_order_error_iff [("a", ["b"]), ("b", ["a"]), ("c", ["a"])]
    (by decide)).2 ["a", "b", "c"] (by rfl) "c"
  exact ⟨rfl, (h.mp (by decide)).2⟩

end WFR
